import Mathlib

/-!
# Verification of the FOL parser (`parser.py`)

A shallow embedding of the tokenizer and recursive-descent parser of
`src/parser.py`, together with proofs settling the frozen claims about it.

Modelling conventions:

* Python strings are modelled as Lean `String`/`List Char`.
* The Unicode-aware single-character predicates used by the source
  (`str.islower`, `str.isupper`, `str.isspace`, hence also the regex class
  `\s`) are modelled faithfully on the Basic Latin and Latin-1 Supplement
  ranges (code points ≤ U+00FF); code points above U+00FF are treated as
  uncased, non-space characters.  The regex classes `[a-z]`, `[A-Z]`,
  `[0-9]` are ASCII-only, exactly as in Python's `re` on these patterns.
* `re.split` with a capturing group returns, interleaved, the unmatched
  stretches of text between matches and the captured groups; the scanner
  `scanAux` below reproduces that behaviour (the leftmost-match rule, the
  greediness of the surrounding `\s*`, and the maximal-run semantics of
  the identifier alternatives).
* Exceptions become an `Except`-style result; the fuelled parser functions
  additionally return `.fuelOut` when the recursion budget is exhausted,
  and we prove that with the budget used by `parse` this never happens.
-/

namespace FOL

/-! ## Character model (Python `str` predicates, Latin-1 fragment) -/

/-- Python's `str.islower` on a single character, restricted to the
Basic Latin / Latin-1 ranges: `a`-`z`, `µ` (U+00B5), `ª` (U+00AA),
`º` (U+00BA), `ß`-`ö` (U+00DF-U+00F6) and `ø`-`ÿ` (U+00F8-U+00FF). -/
def pyIsLower (c : Char) : Bool :=
  (97 ≤ c.toNat && c.toNat ≤ 122) ||
  c.toNat = 0xB5 || c.toNat = 0xAA || c.toNat = 0xBA ||
  (0xDF ≤ c.toNat && c.toNat ≤ 0xF6) ||
  (0xF8 ≤ c.toNat && c.toNat ≤ 0xFF)

/-- Python's `str.isupper` on a single character, restricted to the
Basic Latin / Latin-1 ranges: `A`-`Z`, `À`-`Ö` (U+00C0-U+00D6) and
`Ø`-`Þ` (U+00D8-U+00DE). -/
def pyIsUpper (c : Char) : Bool :=
  (65 ≤ c.toNat && c.toNat ≤ 90) ||
  (0xC0 ≤ c.toNat && c.toNat ≤ 0xD6) ||
  (0xD8 ≤ c.toNat && c.toNat ≤ 0xDE)

/-- Python's `str.isspace` on a single character (also the regex class
`\s`), restricted to code points ≤ U+00FF: tab, LF, VT, FF, CR, space,
the C0 separators U+001C-U+001F, NEL (U+0085) and NBSP (U+00A0). -/
def pyIsSpace (c : Char) : Bool :=
  (9 ≤ c.toNat && c.toNat ≤ 13) || c.toNat = 32 ||
  (0x1C ≤ c.toNat && c.toNat ≤ 0x1F) || c.toNat = 0x85 || c.toNat = 0xA0

/-- The ASCII regex class `[a-z]`. -/
def asciiLower (c : Char) : Bool := 97 ≤ c.toNat && c.toNat ≤ 122

/-- The ASCII regex class `[A-Z]`. -/
def asciiUpper (c : Char) : Bool := 65 ≤ c.toNat && c.toNat ≤ 90

/-- The ASCII regex class `[0-9]`. -/
def asciiDigit (c : Char) : Bool := 48 ≤ c.toNat && c.toNat ≤ 57

/-- Continuation characters of the regex alternative `[a-z][a-z0-9]*`. -/
def lowerCont (c : Char) : Bool := asciiLower c || asciiDigit c

/-- Continuation characters of the regex alternative `[A-Z][A-Z0-9]*`. -/
def upperCont (c : Char) : Bool := asciiUpper c || asciiDigit c

theorem asciiLower_iff {c : Char} :
    asciiLower c = true ↔ 97 ≤ c.toNat ∧ c.toNat ≤ 122 := by
  simp [asciiLower]

theorem asciiUpper_iff {c : Char} :
    asciiUpper c = true ↔ 65 ≤ c.toNat ∧ c.toNat ≤ 90 := by
  simp [asciiUpper]

theorem asciiDigit_iff {c : Char} :
    asciiDigit c = true ↔ 48 ≤ c.toNat ∧ c.toNat ≤ 57 := by
  simp [asciiDigit]

theorem pyIsLower_iff {c : Char} :
    pyIsLower c = true ↔
      (97 ≤ c.toNat ∧ c.toNat ≤ 122) ∨ c.toNat = 0xB5 ∨ c.toNat = 0xAA ∨
      c.toNat = 0xBA ∨ (0xDF ≤ c.toNat ∧ c.toNat ≤ 0xF6) ∨
      (0xF8 ≤ c.toNat ∧ c.toNat ≤ 0xFF) := by
  simp [pyIsLower]
  tauto

theorem pyIsUpper_iff {c : Char} :
    pyIsUpper c = true ↔
      (65 ≤ c.toNat ∧ c.toNat ≤ 90) ∨ (0xC0 ≤ c.toNat ∧ c.toNat ≤ 0xD6) ∨
      (0xD8 ≤ c.toNat ∧ c.toNat ≤ 0xDE) := by
  simp [pyIsUpper]
  tauto

theorem pyIsSpace_iff {c : Char} :
    pyIsSpace c = true ↔
      (9 ≤ c.toNat ∧ c.toNat ≤ 13) ∨ c.toNat = 32 ∨
      (0x1C ≤ c.toNat ∧ c.toNat ≤ 0x1F) ∨ c.toNat = 0x85 ∨
      c.toNat = 0xA0 := by
  simp [pyIsSpace]
  tauto

/-! ## Tokenizer (`FOLParser._tokenize`) -/

/-- The pre-pass
`text.replace('(', ' ( ').replace(')', ' ) ').replace('.', ' . ')`.
The three replacements are independent (none inserts a character that a
later replacement rewrites), so a single traversal models them. -/
def pad (cs : List Char) : List Char :=
  cs.flatMap fun c =>
    if c = '(' then [' ', '(', ' ']
    else if c = ')' then [' ', ')', ' ']
    else if c = '.' then [' ', '.', ' ']
    else [c]

/-- One attempt of the capturing group
`\(|\)|[a-z][a-z0-9]*|[A-Z][A-Z0-9]*|~|&|\||->|\.|,` at the head of the
input.  Returns the captured text and the remaining input.  The
alternatives are distinguished by their first character, so the regex's
ordered alternation and greedy runs reduce to this case split. -/
def matchCore : List Char → Option (List Char × List Char)
  | [] => none
  | c :: cs =>
    if c = '(' then some ([c], cs)
    else if c = ')' then some ([c], cs)
    else if asciiLower c then
      some (c :: cs.takeWhile lowerCont, cs.dropWhile lowerCont)
    else if asciiUpper c then
      some (c :: cs.takeWhile upperCont, cs.dropWhile upperCont)
    else if c = '~' then some ([c], cs)
    else if c = '&' then some ([c], cs)
    else if c = '|' then some ([c], cs)
    else if c = '-' then
      if cs.head? = some '>' then some ([c, '>'], cs.tail) else none
    else if c = '.' then some ([c], cs)
    else if c = ',' then some ([c], cs)
    else none

/-- One attempt of the whole pattern `\s*(…)\s*` at the head of the input:
skip the (maximal) whitespace run, match the core group, then absorb the
(maximal) trailing whitespace.  `none` means no match starts here. -/
def tryMatch (cs : List Char) : Option (List Char × List Char) :=
  match matchCore (cs.dropWhile pyIsSpace) with
  | some (tok, rest) => some (tok, rest.dropWhile pyIsSpace)
  | none => none

/-- The filter `if t and not t.isspace()` applied when a pending unmatched
stretch is emitted. -/
def flushPending (pending : List Char) (rest : List String) : List String :=
  if pending.all pyIsSpace then rest else String.mk pending :: rest

/-- The scanner implementing `re.split(token_regex, text)` followed by the
filter: walk the text; where the pattern matches, emit the pending
unmatched stretch (filtered) and the captured token; where it does not,
grow the pending stretch by one character.  Structural fuel keeps the
definition kernel-reducible; `cs.length + 1` fuel always suffices. -/
def scanAuxF : Nat → List Char → List Char → List String
  | 0, _, _ => []
  | _ + 1, pending, [] => flushPending pending []
  | fuel + 1, pending, c :: cs =>
    match tryMatch (c :: cs) with
    | some (tok, rest) =>
        flushPending pending (String.mk tok :: scanAuxF fuel [] rest)
    | none => scanAuxF fuel (pending ++ [c]) cs

/-- The scanner with its fuel instantiated to a sufficient value. -/
def scanAux (pending : List Char) (cs : List Char) : List String :=
  scanAuxF (cs.length + 1) pending cs

/-- `FOLParser._tokenize`. -/
def tokenize (s : String) : List String :=
  scanAux [] (pad s.data)

/-! ## AST (`Formula` and its subclasses) -/

/-- The AST node kinds of `parser.py`.  The source uses one class
hierarchy rooted at `Formula`, with `Variable` and `Constant` doubling as
terms; one inductive type with all nine constructors models that.  A
quantifier's `variable` field is a `Formula` (the parser always stores a
`Variable` node there, which we prove, not a fact built into the type). -/
inductive Formula where
  | Variable (name : String)
  | Constant (name : String)
  | Predicate (name : String) (terms : List Formula)
  | Negation (formula : Formula)
  | Conjunction (left right : Formula)
  | Disjunction (left right : Formula)
  | Implication (left right : Formula)
  | Forall (var formula : Formula)
  | Exists (var formula : Formula)

/-- `ParseError`: in the source it is a bare `Exception` subclass whose
only payload is the message string passed to `raise`. -/
structure ParseError where
  msg : String
  deriving DecidableEq, Repr

/-! ## Parser (`FOLParser`) -/

/-- Result of a fuelled parsing function: a value together with the new
cursor position, an error, or fuel exhaustion (an artifact of the
embedding, proved unreachable for the fuel used by `parse`). -/
inductive POut (α : Type) where
  | ok (a : α) (pos : Nat)
  | err (e : ParseError)
  | fuelOut

/-- Sequencing of fuelled parser steps. -/
def pbind {α β : Type} : POut α → (α → Nat → POut β) → POut β
  | .ok a pos, k => k a pos
  | .err e, _ => .err e
  | .fuelOut, _ => .fuelOut

/-- How a Python f-string renders the peeked token: the string itself, or
`None` at end of input. -/
def showTok : Option String → String
  | none => "None"
  | some t => t

/-- `FOLParser._peek`. -/
def peek (toks : List String) (pos : Nat) : Option String :=
  toks.get? pos

/-- `FOLParser._consume`.  With an `expected` token, a mismatch (including
end of input) reports the expectation and the position; without one, only
end of input fails, with a position-free message. -/
def consumeP (toks : List String) (pos : Nat) (expected : Option String) :
    POut String :=
  match expected with
  | some e =>
    if peek toks pos = some e then .ok e (pos + 1)
    else .err ⟨"Expected '" ++ e ++ "' but found '" ++ showTok (peek toks pos)
                ++ "' at position " ++ toString pos⟩
  | none =>
    match peek toks pos with
    | none => .err ⟨"Unexpected end of input"⟩
    | some t => .ok t (pos + 1)

/-- Does the peeked token start with an uppercase character
(`token and token[0].isupper()`)? -/
def startsUpper : Option String → Bool
  | none => false
  | some t =>
    match t.data with
    | [] => false
    | c :: _ => pyIsUpper c

/-- Python's `str.islower` on a whole token: at least one cased character
and no uppercase one (in the Latin-1 model, cased = lower ∪ upper). -/
def pyStrIsLower (s : String) : Bool :=
  s.data.any pyIsLower && !s.data.any pyIsUpper

/-- `FOLParser.parse_term` (non-recursive).  `if not token` in the source
also catches an empty-string token, hence the `[]` case. -/
def parseTermP (toks : List String) (pos : Nat) : POut Formula :=
  match peek toks pos with
  | none => .err ⟨"Unexpected end of input, expected a term."⟩
  | some t =>
    match t.data with
    | [] => .err ⟨"Unexpected end of input, expected a term."⟩
    | c :: _ =>
      if pyIsLower c then .ok (.Variable t) (pos + 1)
      else if pyIsUpper c then .ok (.Constant t) (pos + 1)
      else .err ⟨"Invalid term: " ++ t⟩

mutual

/-- `FOLParser.parse_formula`. -/
def parseFormulaF (toks : List String) : Nat → Nat → POut Formula
  | 0, _ => .fuelOut
  | fuel + 1, pos =>
    let token := peek toks pos
    if token = some "(" then
      pbind (consumeP toks pos (some "(")) fun _ pos1 =>
      pbind (parseFormulaF toks fuel pos1) fun left pos2 =>
      pbind (consumeP toks pos2 none) fun op pos3 =>
      pbind (parseFormulaF toks fuel pos3) fun right pos4 =>
      pbind (consumeP toks pos4 (some ")")) fun _ pos5 =>
      if op = "&" then .ok (.Conjunction left right) pos5
      else if op = "|" then .ok (.Disjunction left right) pos5
      else if op = "->" then .ok (.Implication left right) pos5
      else .err ⟨"Unknown binary operator: " ++ op⟩
    else if token = some "~" then
      pbind (consumeP toks pos (some "~")) fun _ pos1 =>
      pbind (parseFormulaF toks fuel pos1) fun f pos2 =>
      .ok (.Negation f) pos2
    else if token = some "forall" ∨ token = some "exists" then
      parseQuantifierF toks fuel pos
    else if startsUpper token then
      parsePredicateF toks fuel pos
    else
      .err ⟨"Unexpected token for a formula: " ++ showTok token⟩

/-- `FOLParser.parse_quantifier`. -/
def parseQuantifierF (toks : List String) : Nat → Nat → POut Formula
  | 0, _ => .fuelOut
  | fuel + 1, pos =>
    pbind (consumeP toks pos none) fun qt pos1 =>
    pbind (consumeP toks pos1 none) fun vn pos2 =>
    if pyStrIsLower vn then
      pbind (consumeP toks pos2 (some ".")) fun _ pos3 =>
      pbind (parseFormulaF toks fuel pos3) fun body pos4 =>
      if qt = "forall" then .ok (.Forall (.Variable vn) body) pos4
      else .ok (.Exists (.Variable vn) body) pos4
    else
      .err ⟨"Expected a lowercase variable after quantifier, but got '"
             ++ vn ++ "'"⟩

/-- `FOLParser.parse_predicate`. -/
def parsePredicateF (toks : List String) : Nat → Nat → POut Formula
  | 0, _ => .fuelOut
  | fuel + 1, pos =>
    pbind (consumeP toks pos none) fun name pos1 =>
    pbind (consumeP toks pos1 (some "(")) fun _ pos2 =>
    pbind (if peek toks pos2 = some ")" then .ok [] pos2
           else parseTermsF toks fuel pos2) fun terms pos3 =>
    pbind (consumeP toks pos3 (some ")")) fun _ pos4 =>
    .ok (.Predicate name terms) pos4

/-- The `while True` argument loop of `FOLParser.parse_predicate`:
parse a term, stop before a `)`, otherwise consume `,` and continue. -/
def parseTermsF (toks : List String) : Nat → Nat → POut (List Formula)
  | 0, _ => .fuelOut
  | fuel + 1, pos =>
    pbind (parseTermP toks pos) fun t pos1 =>
    if peek toks pos1 = some ")" then .ok [t] pos1
    else
      pbind (consumeP toks pos1 (some ",")) fun _ pos2 =>
      pbind (parseTermsF toks fuel pos2) fun ts pos3 =>
      .ok (t :: ts) pos3

end

/-- `FOLParser.parse`: tokenize, parse one formula from position 0,
reject leftover tokens.  The fuel `len + 2` is sufficient (proved below);
the `fuelOut` fallback is unreachable. -/
def parse (s : String) : Except ParseError Formula :=
  let toks := tokenize s
  match parseFormulaF toks (toks.length + 2) 0 with
  | .ok f p =>
    if p < toks.length then
      .error ⟨"Unexpected token '" ++ showTok (peek toks p)
               ++ "' at end of expression"⟩
    else .ok f
  | .err e => .error e
  | .fuelOut => .error ⟨"out of fuel"⟩

/-! ## Canonical rendering (`__repr__` of the AST classes) -/

/-- `', '.join(map(str, terms))`. -/
def joinComma : List String → String
  | [] => ""
  | [t] => t
  | t :: ts => t ++ ", " ++ joinComma ts

mutual

/-- The canonical textual rendering, read off the `__repr__` methods:
bare names for `Variable`/`Constant`, `name(t1, t2, …)` for `Predicate`,
`~(f)` for `Negation`, `(l & r)`, `(l | r)`, `(l -> r)` for the binary
connectives, and `forall v. (f)` / `exists v. (f)` for the quantifiers. -/
def render : Formula → String
  | .Variable n => n
  | .Constant n => n
  | .Predicate n ts => n ++ "(" ++ joinComma (renderList ts) ++ ")"
  | .Negation f => "~(" ++ render f ++ ")"
  | .Conjunction l r => "(" ++ render l ++ " & " ++ render r ++ ")"
  | .Disjunction l r => "(" ++ render l ++ " | " ++ render r ++ ")"
  | .Implication l r => "(" ++ render l ++ " -> " ++ render r ++ ")"
  | .Forall v f => "forall " ++ render v ++ ". (" ++ render f ++ ")"
  | .Exists v f => "exists " ++ render v ++ ". (" ++ render f ++ ")"

/-- Renderings of a term list, in order. -/
def renderList : List Formula → List String
  | [] => []
  | t :: ts => render t :: renderList ts

end

/-! ## Token and identifier shapes (for the claims about the lexicon) -/

/-- The shape `[a-z][a-z0-9]*`, matched exactly. -/
def lowerIdentShape (s : String) : Bool :=
  match s.data with
  | [] => false
  | c :: cs => asciiLower c && cs.all lowerCont

/-- The shape `[A-Z][A-Z0-9]*`, matched exactly. -/
def upperIdentShape (s : String) : Bool :=
  match s.data with
  | [] => false
  | c :: cs => asciiUpper c && cs.all upperCont

/-- The legal token shapes listed by the spec: the structural tokens and
operators, lowercase identifiers, and uppercase identifiers. -/
def legalTokenShape (s : String) : Bool :=
  s = "(" || s = ")" || s = "." || s = "," || s = "~" || s = "&" ||
  s = "|" || s = "->" || lowerIdentShape s || upperIdentShape s

/-- A character is ASCII. -/
def isASCII (c : Char) : Bool := c.toNat < 128

/-- Every character of the string is ASCII. -/
def allASCII (s : String) : Bool := s.data.all isASCII

/-- Does the string contain a decimal digit?  (Used to show that an error
message carries no token index at all.) -/
def containsDigit (s : String) : Bool := s.data.any asciiDigit

mutual

/-- Does the formula contain a `Negation`, `Forall` or `Exists` node? -/
def hasNegOrQuant : Formula → Bool
  | .Variable _ => false
  | .Constant _ => false
  | .Predicate _ ts => hasNegOrQuantList ts
  | .Negation _ => true
  | .Conjunction l r => hasNegOrQuant l || hasNegOrQuant r
  | .Disjunction l r => hasNegOrQuant l || hasNegOrQuant r
  | .Implication l r => hasNegOrQuant l || hasNegOrQuant r
  | .Forall _ _ => true
  | .Exists _ _ => true

/-- `hasNegOrQuant` over a term list. -/
def hasNegOrQuantList : List Formula → Bool
  | [] => false
  | t :: ts => hasNegOrQuant t || hasNegOrQuantList ts

end

/-- Is the node a `Variable` or `Constant` (a bare term node)? -/
def isTermNode : Formula → Bool
  | .Variable _ => true
  | .Constant _ => true
  | _ => false

mutual

/-- The structural invariant of claim C10: every formula position holds a
`Predicate`, `Negation`, binary connective or quantifier (never a bare
`Variable`/`Constant`), every predicate argument is a `Variable` or
`Constant`, and every quantifier's `var` field is a `Variable` node. -/
def properFormula : Formula → Bool
  | .Variable _ => false
  | .Constant _ => false
  | .Predicate _ ts => properTerms ts
  | .Negation f => properFormula f
  | .Conjunction l r => properFormula l && properFormula r
  | .Disjunction l r => properFormula l && properFormula r
  | .Implication l r => properFormula l && properFormula r
  | .Forall v f =>
    (match v with | .Variable _ => true | _ => false) && properFormula f
  | .Exists v f =>
    (match v with | .Variable _ => true | _ => false) && properFormula f

/-- Each element of a predicate's term list is a `Variable` or `Constant`. -/
def properTerms : List Formula → Bool
  | [] => true
  | t :: ts => isTermNode t && properTerms ts

end

mutual

/-- Claim C5's shape property over a whole formula: every `Variable` name
matches `[a-z][a-z0-9]*` and every `Constant` name matches
`[A-Z][A-Z0-9]*`, at all positions (terms and bound variables alike). -/
def namesShaped : Formula → Bool
  | .Variable n => lowerIdentShape n
  | .Constant n => upperIdentShape n
  | .Predicate _ ts => namesShapedList ts
  | .Negation f => namesShaped f
  | .Conjunction l r => namesShaped l && namesShaped r
  | .Disjunction l r => namesShaped l && namesShaped r
  | .Implication l r => namesShaped l && namesShaped r
  | .Forall v f => namesShaped v && namesShaped f
  | .Exists v f => namesShaped v && namesShaped f

/-- `namesShaped` over a term list. -/
def namesShapedList : List Formula → Bool
  | [] => true
  | t :: ts => namesShaped t && namesShapedList ts

end

/-! ## Basic lemmas about the parser combinators -/

@[simp] theorem pbind_ok {α β : Type} (a : α) (p : Nat) (k : α → Nat → POut β) :
    pbind (.ok a p) k = k a p := rfl

@[simp] theorem pbind_err {α β : Type} (e : ParseError) (k : α → Nat → POut β) :
    pbind (.err e) k = .err e := rfl

@[simp] theorem pbind_fuelOut {α β : Type} (k : α → Nat → POut β) :
    pbind (.fuelOut : POut α) k = .fuelOut := rfl

theorem pbind_ne_fuelOut {α β : Type} {r : POut α} {k : α → Nat → POut β}
    (h1 : r ≠ .fuelOut) (h2 : ∀ a p, r = .ok a p → k a p ≠ .fuelOut) :
    pbind r k ≠ .fuelOut := by
  cases r with
  | ok a p => exact h2 a p rfl
  | err e => simp
  | fuelOut => exact absurd rfl h1

theorem pbind_ok_inv {α β : Type} {r : POut α} {k : α → Nat → POut β}
    {b : β} {p : Nat} (h : pbind r k = .ok b p) :
    ∃ a q, r = .ok a q ∧ k a q = .ok b p := by
  cases r with
  | ok a q => exact ⟨a, q, rfl, h⟩
  | err e => simp at h
  | fuelOut => simp at h

theorem peek_lt {toks : List String} {pos : Nat} {t : String}
    (h : peek toks pos = some t) : pos < toks.length :=
  List.get?_eq_some.mp h |>.1

theorem peek_mem {toks : List String} {pos : Nat} {t : String}
    (h : peek toks pos = some t) : t ∈ toks :=
  List.get?_mem h

theorem consumeP_ne_fuelOut (toks : List String) (pos : Nat)
    (expected : Option String) : consumeP toks pos expected ≠ .fuelOut := by
  unfold consumeP
  cases expected with
  | some e =>
    by_cases h : peek toks pos = some e <;> simp [h]
  | none =>
    cases h : peek toks pos <;> simp

theorem consumeP_ok_none {toks : List String} {pos : Nat} {t : String}
    {p : Nat} (h : consumeP toks pos none = .ok t p) :
    peek toks pos = some t ∧ p = pos + 1 := by
  unfold consumeP at h
  cases hp : peek toks pos with
  | none => rw [hp] at h; cases h
  | some u => rw [hp] at h; cases h; exact ⟨rfl, rfl⟩

theorem consumeP_ok_some {toks : List String} {pos : Nat} {e t : String}
    {p : Nat} (h : consumeP toks pos (some e) = .ok t p) :
    t = e ∧ peek toks pos = some e ∧ p = pos + 1 := by
  simp only [consumeP] at h
  by_cases hp : peek toks pos = some e
  · rw [if_pos hp] at h; cases h; exact ⟨rfl, hp, rfl⟩
  · rw [if_neg hp] at h; cases h

/-! ## Termination: the fuel used by `parse` is always sufficient

The parser makes progress: each production, when it succeeds, advances
the cursor, and every recursive call happens behind at least one consumed
token.  `Adeq len pos r` packages what we prove about each intermediate
result `r`: it is never `fuelOut`, and on success the new position lies
strictly beyond `pos` and within the token count. -/

/-- Adequacy of a fuelled result: no fuel exhaustion, and success
positions advance and stay in range. -/
def Adeq {α : Type} (len pos : Nat) : POut α → Prop
  | .ok _ p => pos < p ∧ p ≤ len
  | .err _ => True
  | .fuelOut => False

@[simp] theorem Adeq_ok {α : Type} {len pos : Nat} {a : α} {p : Nat} :
    Adeq len pos (.ok a p) ↔ pos < p ∧ p ≤ len := Iff.rfl

@[simp] theorem Adeq_err {α : Type} {len pos : Nat} {e : ParseError} :
    Adeq len pos (.err e : POut α) := trivial

theorem Adeq.ne_fuelOut {α : Type} {len pos : Nat} {r : POut α}
    (h : Adeq len pos r) : r ≠ .fuelOut := by
  cases r with
  | ok a p => simp
  | err e => simp
  | fuelOut => exact absurd h (by simp [Adeq])

theorem Adeq.pbind {α β : Type} {len pos : Nat} {r : POut α}
    {k : α → Nat → POut β} (hr : r ≠ .fuelOut)
    (hk : ∀ a q, r = .ok a q → Adeq len pos (k a q)) :
    Adeq len pos (pbind r k) := by
  cases r with
  | ok a q => exact hk a q rfl
  | err e => simp
  | fuelOut => exact absurd rfl hr

theorem parseTermP_adeq (toks : List String) (pos : Nat) :
    Adeq toks.length pos (parseTermP toks pos) := by
  unfold parseTermP
  split
  · simp
  · rename_i t hp
    have hlt := peek_lt hp
    split
    · simp
    · split_ifs <;> simp <;> omega

/-- The joint adequacy statement for the four fuelled productions. -/
theorem parseAdeqAll (toks : List String) (fuel : Nat) :
    (∀ pos, pos ≤ toks.length → toks.length + 2 ≤ fuel + pos →
        Adeq toks.length pos (parseFormulaF toks fuel pos)) ∧
    (∀ pos, pos ≤ toks.length → toks.length + 1 ≤ fuel + pos →
        Adeq toks.length pos (parseQuantifierF toks fuel pos)) ∧
    (∀ pos, pos ≤ toks.length → toks.length + 1 ≤ fuel + pos →
        Adeq toks.length pos (parsePredicateF toks fuel pos)) ∧
    (∀ pos, pos ≤ toks.length → toks.length + 1 ≤ fuel + pos →
        Adeq toks.length pos (parseTermsF toks fuel pos)) := by
  induction fuel with
  | zero =>
    refine ⟨fun pos h1 h2 => absurd h2 (by omega),
            fun pos h1 h2 => absurd h2 (by omega),
            fun pos h1 h2 => absurd h2 (by omega),
            fun pos h1 h2 => absurd h2 (by omega)⟩
  | succ fuel ih =>
    obtain ⟨ihF, ihQ, ihP, ihT⟩ := ih
    set len := toks.length with hlen
    refine ⟨?_, ?_, ?_, ?_⟩
    · -- parse_formula
      intro pos hle hfuel
      simp only [parseFormulaF]
      by_cases h1 : peek toks pos = some "("
      · rw [if_pos h1]
        have hlt := peek_lt h1
        refine Adeq.pbind (consumeP_ne_fuelOut _ _ _) ?_
        intro a q hcons
        obtain ⟨-, -, hq⟩ := consumeP_ok_some hcons
        subst hq
        have hF1 := ihF (pos + 1) (by omega) (by omega)
        refine Adeq.pbind hF1.ne_fuelOut ?_
        intro left pos2 hL
        rw [hL] at hF1
        obtain ⟨hb1, hb2⟩ := Adeq_ok.mp hF1
        refine Adeq.pbind (consumeP_ne_fuelOut _ _ _) ?_
        intro op pos3 hc2
        obtain ⟨hpk2, hq3⟩ := consumeP_ok_none hc2
        have hlt2 := peek_lt hpk2
        subst hq3
        have hF2 := ihF (pos2 + 1) (by omega) (by omega)
        refine Adeq.pbind hF2.ne_fuelOut ?_
        intro right pos4 hR
        rw [hR] at hF2
        obtain ⟨hb3, hb4⟩ := Adeq_ok.mp hF2
        refine Adeq.pbind (consumeP_ne_fuelOut _ _ _) ?_
        intro c pos5 hc3
        obtain ⟨-, hpk3, hq5⟩ := consumeP_ok_some hc3
        have hlt3 := peek_lt hpk3
        subst hq5
        split_ifs <;> simp <;> omega
      · rw [if_neg h1]
        by_cases h2 : peek toks pos = some "~"
        · rw [if_pos h2]
          have hlt := peek_lt h2
          refine Adeq.pbind (consumeP_ne_fuelOut _ _ _) ?_
          intro a q hcons
          obtain ⟨-, -, hq⟩ := consumeP_ok_some hcons
          subst hq
          have hF1 := ihF (pos + 1) (by omega) (by omega)
          refine Adeq.pbind hF1.ne_fuelOut ?_
          intro f pos2 hL
          rw [hL] at hF1
          obtain ⟨hb1, hb2⟩ := Adeq_ok.mp hF1
          simp
          omega
        · rw [if_neg h2]
          by_cases h3 : peek toks pos = some "forall" ∨ peek toks pos = some "exists"
          · rw [if_pos h3]
            exact ihQ pos hle (by omega)
          · rw [if_neg h3]
            by_cases h4 : startsUpper (peek toks pos) = true
            · rw [if_pos h4]
              exact ihP pos hle (by omega)
            · rw [if_neg h4]
              simp
    · -- parse_quantifier
      intro pos hle hfuel
      simp only [parseQuantifierF]
      refine Adeq.pbind (consumeP_ne_fuelOut _ _ _) ?_
      intro qt pos1 hc1
      obtain ⟨hpk1, hq1⟩ := consumeP_ok_none hc1
      have hlt1 := peek_lt hpk1
      subst hq1
      refine Adeq.pbind (consumeP_ne_fuelOut _ _ _) ?_
      intro vn pos2 hc2
      obtain ⟨hpk2, hq2⟩ := consumeP_ok_none hc2
      have hlt2 := peek_lt hpk2
      subst hq2
      by_cases hvl : pyStrIsLower vn = true
      · rw [if_pos hvl]
        refine Adeq.pbind (consumeP_ne_fuelOut _ _ _) ?_
        intro c pos3 hc3
        obtain ⟨-, hpk3, hq3⟩ := consumeP_ok_some hc3
        have hlt3 := peek_lt hpk3
        subst hq3
        have hF1 := ihF (pos + 1 + 1 + 1) (by omega) (by omega)
        refine Adeq.pbind hF1.ne_fuelOut ?_
        intro body pos4 hB
        rw [hB] at hF1
        obtain ⟨hb1, hb2⟩ := Adeq_ok.mp hF1
        split_ifs <;> simp <;> omega
      · rw [if_neg hvl]
        simp
    · -- parse_predicate
      intro pos hle hfuel
      simp only [parsePredicateF]
      refine Adeq.pbind (consumeP_ne_fuelOut _ _ _) ?_
      intro name pos1 hc1
      obtain ⟨hpk1, hq1⟩ := consumeP_ok_none hc1
      have hlt1 := peek_lt hpk1
      subst hq1
      refine Adeq.pbind (consumeP_ne_fuelOut _ _ _) ?_
      intro c pos2 hc2
      obtain ⟨-, hpk2, hq2⟩ := consumeP_ok_some hc2
      have hlt2 := peek_lt hpk2
      subst hq2
      by_cases hcl : peek toks (pos + 1 + 1) = some ")"
      · rw [if_pos hcl]
        simp only [pbind_ok]
        refine Adeq.pbind (consumeP_ne_fuelOut _ _ _) ?_
        intro c2 pos4 hc3
        obtain ⟨-, hpk3, hq3⟩ := consumeP_ok_some hc3
        have hlt3 := peek_lt hpk3
        subst hq3
        simp
        omega
      · rw [if_neg hcl]
        have hA := ihT (pos + 1 + 1) (by omega) (by omega)
        refine Adeq.pbind hA.ne_fuelOut ?_
        intro ts pos3 hTs
        rw [hTs] at hA
        obtain ⟨hb3, hb4⟩ := Adeq_ok.mp hA
        refine Adeq.pbind (consumeP_ne_fuelOut _ _ _) ?_
        intro c2 pos4 hc3
        obtain ⟨-, hpk3, hq3⟩ := consumeP_ok_some hc3
        have hlt3 := peek_lt hpk3
        subst hq3
        simp
        omega
    · -- the predicate-argument loop
      intro pos hle hfuel
      simp only [parseTermsF]
      have ht := parseTermP_adeq toks pos
      refine Adeq.pbind ht.ne_fuelOut ?_
      intro t pos1 hT
      rw [hT] at ht
      obtain ⟨hb1, hb2⟩ := Adeq_ok.mp ht
      by_cases hcl : peek toks pos1 = some ")"
      · rw [if_pos hcl]
        simp
        omega
      · rw [if_neg hcl]
        refine Adeq.pbind (consumeP_ne_fuelOut _ _ _) ?_
        intro c pos2 hc2
        obtain ⟨-, hpk2, hq2⟩ := consumeP_ok_some hc2
        have hlt2 := peek_lt hpk2
        subst hq2
        have hR := ihT (pos1 + 1) (by omega) (by omega)
        refine Adeq.pbind hR.ne_fuelOut ?_
        intro ts pos3 hTs
        rw [hTs] at hR
        obtain ⟨hb3, hb4⟩ := Adeq_ok.mp hR
        simp
        omega

/-- Has the fuelled computation produced an actual outcome (success or
error), rather than running out of fuel? -/
def terminated {α : Type} : POut α → Bool
  | .fuelOut => false
  | _ => true

/-- C8: for every input string, running the formula parser with the
recursion budget used by `parse` (token count + 2) terminates with an
actual outcome — the budget, one unit per consumed token plus slack, is
never exhausted, because every recursive call sits behind at least one
consumed token.  Hence `parse` is total. -/
theorem parse_formula_terminates (s : String) :
    terminated (parseFormulaF (tokenize s) ((tokenize s).length + 2) 0)
      = true := by
  have h := (parseAdeqAll (tokenize s) ((tokenize s).length + 2)).1 0
    (by omega) (by omega)
  cases hr : parseFormulaF (tokenize s) ((tokenize s).length + 2) 0 with
  | ok f p => rfl
  | err e => rfl
  | fuelOut => rw [hr] at h; exact absurd h (by simp [Adeq])

/-- C6: the spec's worked example parses to exactly the expected AST,
with the predicate argument lists in the given order. -/
theorem parse_worked_example :
    parse "forall x. (P(x) -> Q(x, A))" =
      .ok (.Forall (.Variable "x")
        (.Implication (.Predicate "P" [.Variable "x"])
          (.Predicate "Q" [.Variable "x", .Constant "A"]))) := rfl

/-- C7: `parse "forall x P(x)"` fails with the structural-mismatch error
for the missing `.`, and the reported position 2 is exactly the index of
the token `P` in the token stream (the only such index). -/
theorem parse_missing_dot_position :
    parse "forall x P(x)" =
      .error ⟨"Expected '.' but found 'P' at position 2"⟩ ∧
    (tokenize "forall x P(x)").get? 2 = some "P" ∧
    ∀ i, (tokenize "forall x P(x)").get? i = some "P" → i = 2 := by
  refine ⟨rfl, rfl, ?_⟩
  intro i h
  rw [show tokenize "forall x P(x)" = ["forall", "x", "P", "(", "x", ")"]
    from rfl] at h
  rcases i with _ | _ | _ | _ | _ | _ | i <;> simp_all

/-- C9: the whole token stream must be consumed by exactly one formula:
if the formula production succeeds at a position short of the token
count, `parse` reports the trailing token; and the empty input (empty
token sequence) is an error, never a default formula. -/
theorem parse_requires_full_consumption :
    (∀ s f p, parseFormulaF (tokenize s) ((tokenize s).length + 2) 0
        = .ok f p →
      p < (tokenize s).length →
      ∃ t, peek (tokenize s) p = some t ∧
        parse s = .error ⟨"Unexpected token '" ++ t
                           ++ "' at end of expression"⟩) ∧
    parse "" = .error ⟨"Unexpected token for a formula: None"⟩ := by
  refine ⟨?_, rfl⟩
  intro s f p hok hlt
  obtain ⟨t, ht⟩ : ∃ t, peek (tokenize s) p = some t := by
    cases hp : peek (tokenize s) p with
    | none =>
      exact absurd (List.get?_eq_none.mp hp) (by omega)
    | some t => exact ⟨t, rfl⟩
  refine ⟨t, ht, ?_⟩
  simp only [parse, hok, if_pos hlt, ht, showTok]

/-- Concrete instance of C9: `"P() Q()"` parses `P()` at positions 0–2 and
then rejects the trailing `Q`. -/
theorem parse_requires_full_consumption_witness :
    ∃ t, peek (tokenize "P() Q()") 3 = some t ∧
      parse "P() Q()" = .error ⟨"Unexpected token '" ++ t
                                 ++ "' at end of expression"⟩ :=
  parse_requires_full_consumption.1 "P() Q()" (.Predicate "P" []) 3 rfl
    (by decide)

/-! ## Soundness: where the parser's AST nodes come from

Every name stored in a node of a successfully parsed formula is a token
of the stream, sitting at a non-final index (the parser always consumes
or inspects a further token after it), and satisfies the guard of the
branch that built the node.  This is the invariant from which the claims
about node shapes and about re-parsing the rendering follow. -/

/-- The first character satisfies `str.islower` (`token[0].islower()`). -/
def headLower (s : String) : Bool :=
  match s.data with
  | [] => false
  | c :: _ => pyIsLower c

/-- The first character satisfies `str.isupper` (`token[0].isupper()`). -/
def headUpper (s : String) : Bool :=
  match s.data with
  | [] => false
  | c :: _ => pyIsUpper c

/-- `t` occurs in the token stream at an index that is not the last. -/
def originTok (toks : List String) (t : String) : Prop :=
  ∃ i, toks.get? i = some t ∧ i + 1 < toks.length

/-- Invariant of a quantifier's `var` field: a `Variable` whose name is a
stream token that passed the `islower()` check. -/
def SVar (toks : List String) : Formula → Prop
  | .Variable n => pyStrIsLower n = true ∧ originTok toks n
  | _ => False

/-- Invariant of a predicate argument: a `Variable` (resp. `Constant`)
whose name is a stream token whose first character passed `islower()`
(resp. failed it and passed `isupper()`). -/
def STerm (toks : List String) : Formula → Prop
  | .Variable n => headLower n = true ∧ originTok toks n
  | .Constant n => headUpper n = true ∧ headLower n = false ∧ originTok toks n
  | _ => False

mutual

/-- The full invariant of formulas built by `parse_formula`. -/
def SOut (toks : List String) : Formula → Prop
  | .Variable _ => False
  | .Constant _ => False
  | .Predicate n ts =>
    headUpper n = true ∧ originTok toks n ∧ SLTerms toks ts
  | .Negation f => SOut toks f
  | .Conjunction l r => SOut toks l ∧ SOut toks r
  | .Disjunction l r => SOut toks l ∧ SOut toks r
  | .Implication l r => SOut toks l ∧ SOut toks r
  | .Forall v b => SVar toks v ∧ SOut toks b
  | .Exists v b => SVar toks v ∧ SOut toks b

/-- `SOut`'s companion for predicate argument lists. -/
def SLTerms (toks : List String) : List Formula → Prop
  | [] => True
  | t :: ts => STerm toks t ∧ SLTerms toks ts

end

theorem parseTermP_ok {toks : List String} {pos : Nat} {tf : Formula}
    {p : Nat} (h : parseTermP toks pos = .ok tf p) :
    ∃ tok, peek toks pos = some tok ∧ p = pos + 1 ∧
      ((tf = .Variable tok ∧ headLower tok = true) ∨
       (tf = .Constant tok ∧ headUpper tok = true ∧
         headLower tok = false)) := by
  unfold parseTermP at h
  cases hp : peek toks pos with
  | none => rw [hp] at h; cases h
  | some t =>
    rw [hp] at h
    simp only [] at h
    cases ht : t.data with
    | nil => rw [ht] at h; simp only [] at h; cases h
    | cons c cs =>
      rw [ht] at h
      simp only [] at h
      by_cases h1 : pyIsLower c = true
      · rw [if_pos h1] at h
        cases h
        exact ⟨t, rfl, rfl, .inl ⟨rfl, by simp [headLower, ht, h1]⟩⟩
      · rw [if_neg h1] at h
        by_cases h2 : pyIsUpper c = true
        · rw [if_pos h2] at h
          cases h
          refine ⟨t, rfl, rfl, .inr ⟨rfl, by simp [headUpper, ht, h2], ?_⟩⟩
          simp only [headLower, ht]
          exact Bool.not_eq_true _ ▸ h1
        · rw [if_neg h2] at h
          cases h

/-- The joint soundness statement: every success of the four fuelled
productions satisfies the invariant (`parse_predicate` under the
uppercase-dispatch guard that `parse_formula` establishes). -/
theorem parseSoundAll (toks : List String) (fuel : Nat) :
    (∀ pos f p, parseFormulaF toks fuel pos = .ok f p → SOut toks f) ∧
    (∀ pos f p, parseQuantifierF toks fuel pos = .ok f p → SOut toks f) ∧
    (∀ pos f p, startsUpper (peek toks pos) = true →
      parsePredicateF toks fuel pos = .ok f p → SOut toks f) ∧
    (∀ pos ts p, parseTermsF toks fuel pos = .ok ts p →
      SLTerms toks ts) := by
  induction fuel with
  | zero =>
    refine ⟨?_, ?_, ?_, ?_⟩
    · intro pos f p h; cases h
    · intro pos f p h; cases h
    · intro pos f p hup h; cases h
    · intro pos ts p h; cases h
  | succ fuel ih =>
    obtain ⟨ihF, ihQ, ihP, ihT⟩ := ih
    refine ⟨?_, ?_, ?_, ?_⟩
    · -- parse_formula
      intro pos f p h
      simp only [parseFormulaF] at h
      by_cases h1 : peek toks pos = some "("
      · rw [if_pos h1] at h
        obtain ⟨a, q, hc1, h⟩ := pbind_ok_inv h
        obtain ⟨-, -, hq⟩ := consumeP_ok_some hc1
        subst hq
        obtain ⟨left, pos2, hL, h⟩ := pbind_ok_inv h
        obtain ⟨op, pos3, hc2, h⟩ := pbind_ok_inv h
        obtain ⟨right, pos4, hR, h⟩ := pbind_ok_inv h
        obtain ⟨c, pos5, hc3, h⟩ := pbind_ok_inv h
        have hl := ihF _ _ _ hL
        have hr := ihF _ _ _ hR
        split_ifs at h <;> cases h
        · exact ⟨hl, hr⟩
        · exact ⟨hl, hr⟩
        · exact ⟨hl, hr⟩
      · rw [if_neg h1] at h
        by_cases h2 : peek toks pos = some "~"
        · rw [if_pos h2] at h
          obtain ⟨a, q, hc1, h⟩ := pbind_ok_inv h
          obtain ⟨f', pos2, hL, h⟩ := pbind_ok_inv h
          cases h
          have hf := ihF _ _ _ hL
          exact hf
        · rw [if_neg h2] at h
          by_cases h3 : peek toks pos = some "forall" ∨
              peek toks pos = some "exists"
          · rw [if_pos h3] at h
            exact ihQ _ _ _ h
          · rw [if_neg h3] at h
            by_cases h4 : startsUpper (peek toks pos) = true
            · rw [if_pos h4] at h
              exact ihP _ _ _ h4 h
            · rw [if_neg h4] at h
              cases h
    · -- parse_quantifier
      intro pos f p h
      simp only [parseQuantifierF] at h
      obtain ⟨qt, pos1, hc1, h⟩ := pbind_ok_inv h
      obtain ⟨hpk1, hq1⟩ := consumeP_ok_none hc1
      subst hq1
      obtain ⟨vn, pos2, hc2, h⟩ := pbind_ok_inv h
      obtain ⟨hpk2, hq2⟩ := consumeP_ok_none hc2
      subst hq2
      by_cases hvl : pyStrIsLower vn = true
      · rw [if_pos hvl] at h
        obtain ⟨c, pos3, hc3, h⟩ := pbind_ok_inv h
        obtain ⟨-, hpk3, hq3⟩ := consumeP_ok_some hc3
        have hlt3 := peek_lt hpk3
        subst hq3
        obtain ⟨body, pos4, hB, h⟩ := pbind_ok_inv h
        have hb := ihF _ _ _ hB
        have hor : originTok toks vn := ⟨pos + 1, hpk2, by omega⟩
        split_ifs at h <;> cases h
        · exact ⟨⟨hvl, hor⟩, hb⟩
        · exact ⟨⟨hvl, hor⟩, hb⟩
      · rw [if_neg hvl] at h
        cases h
    · -- parse_predicate
      intro pos f p hup h
      simp only [parsePredicateF] at h
      obtain ⟨name, pos1, hc1, h⟩ := pbind_ok_inv h
      obtain ⟨hpk1, hq1⟩ := consumeP_ok_none hc1
      subst hq1
      obtain ⟨c, pos2, hc2, h⟩ := pbind_ok_inv h
      obtain ⟨-, hpk2, hq2⟩ := consumeP_ok_some hc2
      have hlt2 := peek_lt hpk2
      subst hq2
      obtain ⟨terms, pos3, hts, h⟩ := pbind_ok_inv h
      obtain ⟨c2, pos4, hc3, h⟩ := pbind_ok_inv h
      cases h
      have hname : headUpper name = true := by
        rw [hpk1] at hup
        exact hup
      have hor : originTok toks name := ⟨pos, hpk1, by omega⟩
      refine ⟨hname, hor, ?_⟩
      by_cases hcl : peek toks (pos + 1 + 1) = some ")"
      · rw [if_pos hcl] at hts
        cases hts
        trivial
      · rw [if_neg hcl] at hts
        exact ihT _ _ _ hts
    · -- the predicate-argument loop
      intro pos ts p h
      simp only [parseTermsF] at h
      obtain ⟨t, pos1, hT, h⟩ := pbind_ok_inv h
      obtain ⟨tok, hpk, hq1, hcase⟩ := parseTermP_ok hT
      subst hq1
      by_cases hcl : peek toks (pos + 1) = some ")"
      · rw [if_pos hcl] at h
        cases h
        have hlt := peek_lt hcl
        have hor : originTok toks tok := ⟨pos, hpk, by omega⟩
        refine ⟨?_, trivial⟩
        rcases hcase with ⟨rfl, hl⟩ | ⟨rfl, hu, hl⟩
        · exact ⟨hl, hor⟩
        · exact ⟨hu, hl, hor⟩
      · rw [if_neg hcl] at h
        obtain ⟨c, pos2, hc2, h⟩ := pbind_ok_inv h
        obtain ⟨-, hpk2, hq2⟩ := consumeP_ok_some hc2
        have hlt2 := peek_lt hpk2
        subst hq2
        obtain ⟨ts', pos3, hTs, h⟩ := pbind_ok_inv h
        cases h
        have hor : originTok toks tok := ⟨pos, hpk, by omega⟩
        refine ⟨?_, ihT _ _ _ hTs⟩
        rcases hcase with ⟨rfl, hl⟩ | ⟨rfl, hu, hl⟩
        · exact ⟨hl, hor⟩
        · exact ⟨hu, hl, hor⟩

/-- Inversion of the top-level `parse`: a success comes from a successful
formula production that consumed the whole stream. -/
theorem parse_ok_inv {s : String} {f : Formula} (h : parse s = .ok f) :
    ∃ p, parseFormulaF (tokenize s) ((tokenize s).length + 2) 0
          = .ok f p ∧
      ¬ p < (tokenize s).length := by
  simp only [parse] at h
  cases hr : parseFormulaF (tokenize s) ((tokenize s).length + 2) 0 with
  | ok f' p =>
    rw [hr] at h
    simp only [] at h
    by_cases hp : p < (tokenize s).length
    · rw [if_pos hp] at h; cases h
    · rw [if_neg hp] at h
      cases h
      exact ⟨p, rfl, hp⟩
  | err e => rw [hr] at h; simp only [] at h; cases h
  | fuelOut => rw [hr] at h; simp only [] at h; cases h

mutual

theorem SOut_properFormula {toks : List String} :
    ∀ f, SOut toks f → properFormula f = true
  | .Variable _, h => h.elim
  | .Constant _, h => h.elim
  | .Predicate n ts, h => by
    obtain ⟨-, -, h3⟩ := h
    simp only [properFormula]
    exact SLTerms_properTerms ts h3
  | .Negation f, h => by
    simp only [properFormula]
    exact SOut_properFormula f h
  | .Conjunction l r, h => by
    obtain ⟨hl, hr⟩ := h
    simp only [properFormula, Bool.and_eq_true]
    exact ⟨SOut_properFormula l hl, SOut_properFormula r hr⟩
  | .Disjunction l r, h => by
    obtain ⟨hl, hr⟩ := h
    simp only [properFormula, Bool.and_eq_true]
    exact ⟨SOut_properFormula l hl, SOut_properFormula r hr⟩
  | .Implication l r, h => by
    obtain ⟨hl, hr⟩ := h
    simp only [properFormula, Bool.and_eq_true]
    exact ⟨SOut_properFormula l hl, SOut_properFormula r hr⟩
  | .Forall v b, h => by
    obtain ⟨hv, hb⟩ := h
    cases v with
    | Variable n =>
      show (true && properFormula b) = true
      rw [Bool.true_and]
      exact SOut_properFormula b hb
    | Constant n => exact hv.elim
    | Predicate n ts => exact hv.elim
    | Negation f => exact hv.elim
    | Conjunction l r => exact hv.elim
    | Disjunction l r => exact hv.elim
    | Implication l r => exact hv.elim
    | Forall v' b' => exact hv.elim
    | Exists v' b' => exact hv.elim
  | .Exists v b, h => by
    obtain ⟨hv, hb⟩ := h
    cases v with
    | Variable n =>
      show (true && properFormula b) = true
      rw [Bool.true_and]
      exact SOut_properFormula b hb
    | Constant n => exact hv.elim
    | Predicate n ts => exact hv.elim
    | Negation f => exact hv.elim
    | Conjunction l r => exact hv.elim
    | Disjunction l r => exact hv.elim
    | Implication l r => exact hv.elim
    | Forall v' b' => exact hv.elim
    | Exists v' b' => exact hv.elim

theorem SLTerms_properTerms {toks : List String} :
    ∀ ts, SLTerms toks ts → properTerms ts = true
  | [], _ => rfl
  | t :: ts, h => by
    obtain ⟨ht, hts⟩ := h
    simp only [properTerms, Bool.and_eq_true]
    refine ⟨?_, SLTerms_properTerms ts hts⟩
    cases t with
    | Variable n => rfl
    | Constant n => rfl
    | Predicate n ts' => exact ht.elim
    | Negation f => exact ht.elim
    | Conjunction l r => exact ht.elim
    | Disjunction l r => exact ht.elim
    | Implication l r => exact ht.elim
    | Forall v b => exact ht.elim
    | Exists v b => exact ht.elim

end

/-- C10: in every formula returned by a successful top-level parse, bare
`Variable`/`Constant` nodes occur only as predicate arguments or as a
quantifier's bound variable; every formula position (root, negation
operand, connective side, quantifier body) holds one of the seven proper
formula node kinds. -/
theorem parse_output_proper (s : String) (f : Formula)
    (h : parse s = .ok f) : properFormula f = true := by
  obtain ⟨p, hok, -⟩ := parse_ok_inv h
  exact SOut_properFormula f
    ((parseSoundAll (tokenize s) ((tokenize s).length + 2)).1 0 f p hok)

/-- Concrete instance of C10 at the input `"forall x. (P(x) -> Q(x, A))"`. -/
theorem parse_output_proper_witness :
    properFormula (.Forall (.Variable "x")
      (.Implication (.Predicate "P" [.Variable "x"])
        (.Predicate "Q" [.Variable "x", .Constant "A"]))) = true :=
  parse_output_proper "forall x. (P(x) -> Q(x, A))" _ rfl

/-! ## Anatomy of the scanner's output

`re.split` interleaves captured group matches with the unmatched
stretches between them.  We characterise both kinds of output token:
a captured token is exactly one core match; an unmatched stretch is a
maximal run of positions at which the pattern does not match. -/

/-- `t` is exactly one core match (one of the legal lexical shapes). -/
def CoreTok (t : List Char) : Prop := matchCore t = some (t, [])

/-- `t` is an unmatched stretch: nonempty, not pure whitespace, and the
pattern `\s*(…)\s*` matches at none of its positions. -/
def JunkTok (t : List Char) : Prop :=
  t ≠ [] ∧ t.all pyIsSpace = false ∧
    ∀ u v, t = u ++ v → v ≠ [] → tryMatch v = none

/-- A *clean* unmatched stretch: additionally, from every position the
whitespace run ends inside `t` at a character where the core group fails
— this is what holds of every unmatched stretch that is followed by a
match (only a final stretch, flushed at end of input, can be weaker). -/
def CleanJunk (t : List Char) : Prop :=
  t ≠ [] ∧ ∀ u v, t = u ++ v → v ≠ [] →
    v.dropWhile pyIsSpace ≠ [] ∧ matchCore (v.dropWhile pyIsSpace) = none

theorem matchCore_cons (c : Char) (cs : List Char) :
    matchCore (c :: cs) =
      if c = '(' then some ([c], cs)
      else if c = ')' then some ([c], cs)
      else if asciiLower c then
        some (c :: cs.takeWhile lowerCont, cs.dropWhile lowerCont)
      else if asciiUpper c then
        some (c :: cs.takeWhile upperCont, cs.dropWhile upperCont)
      else if c = '~' then some ([c], cs)
      else if c = '&' then some ([c], cs)
      else if c = '|' then some ([c], cs)
      else if c = '-' then
        if cs.head? = some '>' then some ([c, '>'], cs.tail) else none
      else if c = '.' then some ([c], cs)
      else if c = ',' then some ([c], cs)
      else none := rfl

theorem matchCore_cases {c : Char} {cs t r : List Char}
    (h : matchCore (c :: cs) = some (t, r)) :
    (t = [c] ∧ r = cs ∧
      (c = '(' ∨ c = ')' ∨ c = '~' ∨ c = '&' ∨ c = '|' ∨
       c = '.' ∨ c = ',')) ∨
    (t = c :: cs.takeWhile lowerCont ∧ r = cs.dropWhile lowerCont ∧
      asciiLower c = true) ∨
    (t = c :: cs.takeWhile upperCont ∧ r = cs.dropWhile upperCont ∧
      asciiUpper c = true) ∨
    (t = [c, '>'] ∧ cs.head? = some '>' ∧ r = cs.tail ∧ c = '-') := by
  rw [matchCore_cons] at h
  by_cases h1 : c = '('
  · rw [if_pos h1] at h; cases h; exact .inl ⟨rfl, rfl, .inl h1⟩
  rw [if_neg h1] at h
  by_cases h2 : c = ')'
  · rw [if_pos h2] at h; cases h; exact .inl ⟨rfl, rfl, .inr (.inl h2)⟩
  rw [if_neg h2] at h
  by_cases h3 : asciiLower c = true
  · rw [if_pos h3] at h; cases h; exact .inr (.inl ⟨rfl, rfl, h3⟩)
  rw [if_neg h3] at h
  by_cases h4 : asciiUpper c = true
  · rw [if_pos h4] at h; cases h; exact .inr (.inr (.inl ⟨rfl, rfl, h4⟩))
  rw [if_neg h4] at h
  by_cases h5 : c = '~'
  · rw [if_pos h5] at h; cases h
    exact .inl ⟨rfl, rfl, .inr (.inr (.inl h5))⟩
  rw [if_neg h5] at h
  by_cases h6 : c = '&'
  · rw [if_pos h6] at h; cases h
    exact .inl ⟨rfl, rfl, .inr (.inr (.inr (.inl h6)))⟩
  rw [if_neg h6] at h
  by_cases h7 : c = '|'
  · rw [if_pos h7] at h; cases h
    exact .inl ⟨rfl, rfl, .inr (.inr (.inr (.inr (.inl h7))))⟩
  rw [if_neg h7] at h
  by_cases h8 : c = '-'
  · rw [if_pos h8] at h
    by_cases h9 : cs.head? = some '>'
    · rw [if_pos h9] at h; cases h
      exact .inr (.inr (.inr ⟨rfl, h9, rfl, h8⟩))
    · rw [if_neg h9] at h; cases h
  rw [if_neg h8] at h
  by_cases h10 : c = '.'
  · rw [if_pos h10] at h; cases h
    exact .inl ⟨rfl, rfl, .inr (.inr (.inr (.inr (.inr (.inl h10)))))⟩
  rw [if_neg h10] at h
  by_cases h11 : c = ','
  · rw [if_pos h11] at h; cases h
    exact .inl ⟨rfl, rfl, .inr (.inr (.inr (.inr (.inr (.inr h11)))))⟩
  rw [if_neg h11] at h
  cases h

theorem matchCore_eq_some {d t r : List Char}
    (h : matchCore d = some (t, r)) : t ≠ [] ∧ d = t ++ r := by
  cases d with
  | nil => cases h
  | cons c cs =>
    rcases matchCore_cases h with
      ⟨rfl, rfl, -⟩ | ⟨rfl, rfl, -⟩ | ⟨rfl, rfl, -⟩ | ⟨rfl, h9, rfl, -⟩
    · exact ⟨List.cons_ne_nil _ _, rfl⟩
    · refine ⟨List.cons_ne_nil _ _, ?_⟩
      rw [List.cons_append, List.takeWhile_append_dropWhile]
    · refine ⟨List.cons_ne_nil _ _, ?_⟩
      rw [List.cons_append, List.takeWhile_append_dropWhile]
    · refine ⟨List.cons_ne_nil _ _, ?_⟩
      cases cs with
      | nil => cases h9
      | cons c2 cs2 =>
        simp only [List.head?] at h9
        cases h9
        rfl

/-- A captured core token re-matches in full, independently of context. -/
theorem matchCore_self {d t r : List Char}
    (h : matchCore d = some (t, r)) : CoreTok t := by
  cases d with
  | nil => cases h
  | cons c cs =>
    rcases matchCore_cases h with
      ⟨rfl, -, hc⟩ | ⟨rfl, -, h3⟩ | ⟨rfl, -, h4⟩ | ⟨rfl, -, -, rfl⟩
    · rcases hc with rfl | rfl | rfl | rfl | rfl | rfl | rfl <;> rfl
    · have hall : ∀ x ∈ cs.takeWhile lowerCont, lowerCont x = true :=
        fun x hx => List.mem_takeWhile_imp hx
      have h1 : c ≠ '(' := fun hc => by subst hc; simp [asciiLower] at h3
      have h2 : c ≠ ')' := fun hc => by subst hc; simp [asciiLower] at h3
      show matchCore _ = _
      rw [matchCore_cons, if_neg h1, if_neg h2, if_pos h3,
        List.takeWhile_eq_self_iff.mpr hall,
        List.dropWhile_eq_nil_iff.mpr hall]
    · have hall : ∀ x ∈ cs.takeWhile upperCont, upperCont x = true :=
        fun x hx => List.mem_takeWhile_imp hx
      have h1 : c ≠ '(' := fun hc => by subst hc; simp [asciiUpper] at h4
      have h2 : c ≠ ')' := fun hc => by subst hc; simp [asciiUpper] at h4
      have h3 : asciiLower c = false := by
        cases hl : asciiLower c with
        | false => rfl
        | true => simp [asciiLower, asciiUpper] at hl h4; omega
      show matchCore _ = _
      rw [matchCore_cons, if_neg h1, if_neg h2, if_neg (by simp [h3]),
        if_pos h4, List.takeWhile_eq_self_iff.mpr hall,
        List.dropWhile_eq_nil_iff.mpr hall]
    · rfl

/-- Failure of the core group at a given first character transfers
between tails, except that `-` needs to know whether the next character
is `>`. -/
theorem matchCore_none_mono {c : Char} {l l' : List Char}
    (h : matchCore (c :: l) = none)
    (hd : l.head? = some '>' ∨ l'.head? ≠ some '>') :
    matchCore (c :: l') = none := by
  rw [matchCore_cons] at h ⊢
  by_cases h1 : c = '('
  · rw [if_pos h1] at h; cases h
  rw [if_neg h1] at h ⊢
  by_cases h2 : c = ')'
  · rw [if_pos h2] at h; cases h
  rw [if_neg h2] at h ⊢
  by_cases h3 : asciiLower c = true
  · rw [if_pos h3] at h; cases h
  rw [if_neg h3] at h ⊢
  by_cases h4 : asciiUpper c = true
  · rw [if_pos h4] at h; cases h
  rw [if_neg h4] at h ⊢
  by_cases h5 : c = '~'
  · rw [if_pos h5] at h; cases h
  rw [if_neg h5] at h ⊢
  by_cases h6 : c = '&'
  · rw [if_pos h6] at h; cases h
  rw [if_neg h6] at h ⊢
  by_cases h7 : c = '|'
  · rw [if_pos h7] at h; cases h
  rw [if_neg h7] at h ⊢
  by_cases h8 : c = '-'
  · rw [if_pos h8] at h ⊢
    by_cases h9 : l.head? = some '>'
    · rw [if_pos h9] at h; cases h
    · rcases hd with hd | hd
      · exact absurd hd h9
      · rw [if_neg hd]
  · rw [if_neg h8] at h ⊢
    by_cases h10 : c = '.'
    · rw [if_pos h10] at h; cases h
    rw [if_neg h10] at h ⊢
    by_cases h11 : c = ','
    · rw [if_pos h11] at h; cases h
    rw [if_neg h11] at h ⊢

/-- A failed core match at the head of a longer input fails on the prefix
alone as well. -/
theorem matchCore_none_prefix {x y : List Char}
    (h : matchCore (x ++ y) = none) (hx : x ≠ []) : matchCore x = none := by
  cases x with
  | nil => exact absurd rfl hx
  | cons c cs =>
    rw [List.cons_append] at h
    refine matchCore_none_mono h ?_
    cases cs with
    | nil => exact .inr (by simp)
    | cons c2 cs2 =>
      by_cases hgt : c2 = '>'
      · exact .inl (by simp [hgt])
      · exact .inr (by simp [hgt])

/-- The reverse transfer: a failed core match on a stretch keeps failing
when more input follows, as long as a lone trailing `-` is not completed
into `->` by the continuation. -/
theorem matchCore_none_extend {c : Char} {l y : List Char}
    (h : matchCore (c :: l) = none)
    (hy : l = [] → y.head? ≠ some '>') :
    matchCore (c :: (l ++ y)) = none := by
  refine matchCore_none_mono h ?_
  cases l with
  | nil => exact .inr (hy rfl)
  | cons c2 cs2 =>
    by_cases hgt : c2 = '>'
    · exact .inl (by simp [hgt])
    · exact .inr (by simp [hgt])

theorem tryMatch_some {cs tok rest : List Char}
    (h : tryMatch cs = some (tok, rest)) :
    ∃ r, matchCore (cs.dropWhile pyIsSpace) = some (tok, r) ∧
      rest = r.dropWhile pyIsSpace := by
  unfold tryMatch at h
  cases hm : matchCore (cs.dropWhile pyIsSpace) with
  | none => rw [hm] at h; cases h
  | some pr =>
    obtain ⟨t, r⟩ := pr
    rw [hm] at h
    cases h
    exact ⟨r, rfl, rfl⟩

theorem tryMatch_none {cs : List Char} (h : tryMatch cs = none) :
    matchCore (cs.dropWhile pyIsSpace) = none := by
  unfold tryMatch at h
  cases hm : matchCore (cs.dropWhile pyIsSpace) with
  | none => rfl
  | some pr => obtain ⟨t, r⟩ := pr; rw [hm] at h; cases h

theorem tryMatch_eq_none {cs : List Char}
    (h : matchCore (cs.dropWhile pyIsSpace) = none) : tryMatch cs = none := by
  unfold tryMatch
  rw [h]

theorem tryMatch_some_length {cs tok rest : List Char}
    (h : tryMatch cs = some (tok, rest)) :
    rest.length < cs.length ∧ tok ≠ [] := by
  obtain ⟨r, hm, hrest⟩ := tryMatch_some h
  obtain ⟨htok, happ⟩ := matchCore_eq_some hm
  have h1 : rest.length ≤ r.length := by
    rw [hrest]
    exact (List.dropWhile_sublist pyIsSpace).length_le
  have h2 : (cs.dropWhile pyIsSpace).length ≤ cs.length :=
    (List.dropWhile_sublist pyIsSpace).length_le
  have h3 : r.length < (cs.dropWhile pyIsSpace).length := by
    rw [happ, List.length_append]
    have : 0 < tok.length := List.length_pos.mpr htok
    omega
  exact ⟨by omega, htok⟩

theorem scanAuxF_irrel :
    ∀ n cs, cs.length ≤ n → ∀ fuel fuel' pending,
      cs.length < fuel → cs.length < fuel' →
      scanAuxF fuel pending cs = scanAuxF fuel' pending cs := by
  intro n
  induction n with
  | zero =>
    intro cs hcs fuel fuel' pending h1 h2
    have : cs = [] := List.length_eq_zero.mp (by omega)
    subst this
    match fuel, h1 with
    | f + 1, _ =>
      match fuel', h2 with
      | f' + 1, _ => rfl
  | succ n ih =>
    intro cs hcs fuel fuel' pending h1 h2
    cases cs with
    | nil =>
      match fuel, h1 with
      | f + 1, _ =>
        match fuel', h2 with
        | f' + 1, _ => rfl
    | cons c cs' =>
      simp only [List.length_cons] at hcs h1 h2
      match fuel, h1 with
      | f + 1, _ =>
        match fuel', h2 with
        | f' + 1, _ =>
          show scanAuxF (f + 1) pending (c :: cs')
            = scanAuxF (f' + 1) pending (c :: cs')
          simp only [scanAuxF]
          cases hm : tryMatch (c :: cs') with
          | none =>
            simp only []
            exact ih cs' (by omega) f f' (pending ++ [c])
              (by omega) (by omega)
          | some pr =>
            obtain ⟨tok, rest⟩ := pr
            have hlen := (tryMatch_some_length hm).1
            simp only [List.length_cons] at hlen
            simp only []
            rw [ih rest (by omega) f f' [] (by omega) (by omega)]

theorem scanAux_nil (pending : List Char) :
    scanAux pending [] = flushPending pending [] := rfl

theorem scanAux_cons (pending : List Char) (c : Char) (cs : List Char) :
    scanAux pending (c :: cs) =
      match tryMatch (c :: cs) with
      | some (tok, rest) =>
          flushPending pending (String.mk tok :: scanAux [] rest)
      | none => scanAux (pending ++ [c]) cs := by
  show scanAuxF (cs.length + 1 + 1) pending (c :: cs) = _
  simp only [scanAuxF]
  cases hm : tryMatch (c :: cs) with
  | none =>
    simp only []
    exact scanAuxF_irrel cs.length cs le_rfl _ _ _ (by omega) (by omega)
  | some pr =>
    obtain ⟨tok, rest⟩ := pr
    have hlen := (tryMatch_some_length hm).1
    simp only [List.length_cons] at hlen
    simp only []
    rw [scanAuxF_irrel rest.length rest le_rfl (cs.length + 1)
      (rest.length + 1) [] (by omega) (by omega)]
    rfl


/-! ## The scanner's pending-stretch invariant and token characterisation -/

/-- Invariant of the scanner's pending buffer: the pattern matches at
none of its positions (with the unscanned input appended). -/
def PendInv (pending cs : List Char) : Prop :=
  ∀ u v, pending = u ++ v → v ≠ [] → tryMatch (v ++ cs) = none

theorem pendInv_nil (cs : List Char) : PendInv [] cs := by
  intro u v heq hv
  exact absurd (List.append_eq_nil.mp heq.symm).2 hv

theorem pendInv_snoc {pending cs : List Char} {c : Char}
    (hp : PendInv pending (c :: cs)) (hm : tryMatch (c :: cs) = none) :
    PendInv (pending ++ [c]) cs := by
  intro u v heq hv
  rcases List.eq_nil_or_concat v with rfl | ⟨v', x, rfl⟩
  · exact absurd rfl hv
  · rw [List.concat_eq_append] at heq ⊢
    rw [← List.append_assoc] at heq
    obtain ⟨h1, h2⟩ := List.append_inj' heq rfl
    cases h2
    rw [List.append_assoc, List.singleton_append]
    rcases List.eq_nil_or_concat v' with rfl | hne
    · exact hm
    · refine hp u v' h1 ?_
      rcases hne with ⟨a, b, rfl⟩
      simp

/-- A pending stretch that is flushed because the pattern matches right
after it is clean junk. -/
theorem cleanJunk_of_pendInv {pending cs : List Char} {pr : List Char × List Char}
    (hp : PendInv pending cs) (hm : tryMatch cs = some pr)
    (hne : pending ≠ []) : CleanJunk pending := by
  refine ⟨hne, ?_⟩
  intro u v heq hv
  have htm : tryMatch (v ++ cs) = none := hp u v heq hv
  have hmc : matchCore ((v ++ cs).dropWhile pyIsSpace) = none :=
    tryMatch_none htm
  have hw : v.dropWhile pyIsSpace ≠ [] := by
    intro hall
    rw [List.dropWhile_append, hall] at hmc
    simp only [List.isEmpty_nil, if_true] at hmc
    rw [tryMatch_eq_none hmc] at hm
    cases hm
  refine ⟨hw, ?_⟩
  rw [List.dropWhile_append] at hmc
  rw [if_neg (by simpa [List.isEmpty_iff] using hw)] at hmc
  exact matchCore_none_prefix hmc hw

theorem cleanJunk_junkTok {t : List Char} (h : CleanJunk t) : JunkTok t := by
  obtain ⟨hne, hsuf⟩ := h
  obtain ⟨hw, -⟩ := hsuf [] t (by simp) hne
  refine ⟨hne, ?_, ?_⟩
  · cases hall : t.all pyIsSpace with
    | false => rfl
    | true =>
      exact absurd (List.dropWhile_eq_nil_iff.mpr
        (fun x hx => by
          have := List.all_eq_true.mp hall x hx
          exact this)) hw
  · intro u v heq hv
    obtain ⟨-, hmc⟩ := hsuf u v heq hv
    exact tryMatch_eq_none hmc

/-- A pending stretch flushed at end of input is junk (possibly with
trailing whitespace, hence not necessarily clean). -/
theorem junkTok_of_pendInv_nil {pending : List Char}
    (hp : PendInv pending []) (hne : pending ≠ [])
    (hws : pending.all pyIsSpace = false) : JunkTok pending := by
  refine ⟨hne, hws, ?_⟩
  intro u v heq hv
  have := hp u v heq hv
  rwa [List.append_nil] at this

/-- Characterisation of the scanner's output: every token is a core
match or an unmatched stretch, and every token other than the final one
is a core match or a *clean* unmatched stretch. -/
theorem scanAux_tokens :
    ∀ n cs, cs.length ≤ n → ∀ pending, PendInv pending cs →
      (∀ t ∈ scanAux pending cs, CoreTok t.data ∨ JunkTok t.data) ∧
      (∀ t ∈ (scanAux pending cs).dropLast,
        CoreTok t.data ∨ CleanJunk t.data) := by
  intro n
  induction n with
  | zero =>
    intro cs hcs pending hp
    have : cs = [] := List.length_eq_zero.mp (by omega)
    subst this
    rw [scanAux_nil]
    unfold flushPending
    by_cases hws : pending.all pyIsSpace = true
    · rw [if_pos hws]
      exact ⟨by simp, by simp⟩
    · rw [if_neg hws]
      have hne : pending ≠ [] := by
        intro h
        subst h
        exact hws rfl
      refine ⟨?_, by simp⟩
      intro t ht
      rcases List.mem_singleton.mp ht with rfl
      exact .inr (junkTok_of_pendInv_nil hp hne
        (Bool.not_eq_true _ ▸ hws))
  | succ n ih =>
    intro cs hcs pending hp
    cases cs with
    | nil =>
      rw [scanAux_nil]
      unfold flushPending
      by_cases hws : pending.all pyIsSpace = true
      · rw [if_pos hws]
        exact ⟨by simp, by simp⟩
      · rw [if_neg hws]
        have hne : pending ≠ [] := by
          intro h
          subst h
          exact hws rfl
        refine ⟨?_, by simp⟩
        intro t ht
        rcases List.mem_singleton.mp ht with rfl
        exact .inr (junkTok_of_pendInv_nil hp hne
          (Bool.not_eq_true _ ▸ hws))
    | cons c cs' =>
      simp only [List.length_cons] at hcs
      rw [scanAux_cons]
      cases hm : tryMatch (c :: cs') with
      | none =>
        simp only []
        exact ih cs' (by omega) (pending ++ [c]) (pendInv_snoc hp hm)
      | some pr =>
        obtain ⟨tok, rest⟩ := pr
        simp only []
        have hlen := (tryMatch_some_length hm).1
        simp only [List.length_cons] at hlen
        obtain ⟨iha, ihb⟩ := ih rest (by omega) [] (pendInv_nil rest)
        have hcore : CoreTok tok := by
          obtain ⟨r, hmc, -⟩ := tryMatch_some hm
          exact matchCore_self hmc
        have houts :
            (∀ t ∈ String.mk tok :: scanAux [] rest,
              CoreTok t.data ∨ JunkTok t.data) ∧
            (∀ t ∈ (String.mk tok :: scanAux [] rest).dropLast,
              CoreTok t.data ∨ CleanJunk t.data) := by
          constructor
          · intro t ht
            rcases List.mem_cons.mp ht with rfl | ht
            · exact .inl hcore
            · exact iha t ht
          · intro t ht
            cases hout : scanAux [] rest with
            | nil => rw [hout] at ht; simp at ht
            | cons o os =>
              rw [hout] at ht
              rw [List.dropLast_cons₂] at ht
              rcases List.mem_cons.mp ht with rfl | ht
              · exact .inl hcore
              · rw [← hout] at ht
                exact ihb t ht
        unfold flushPending
        by_cases hws : pending.all pyIsSpace = true
        · rw [if_pos hws]
          exact houts
        · rw [if_neg hws]
          have hne : pending ≠ [] := by
            intro h
            subst h
            exact hws rfl
          have hclean : CleanJunk pending := cleanJunk_of_pendInv hp hm hne
          constructor
          · intro t ht
            rcases List.mem_cons.mp ht with rfl | ht
            · exact .inr (cleanJunk_junkTok hclean)
            · exact houts.1 t ht
          · intro t ht
            rw [List.dropLast_cons₂] at ht
            rcases List.mem_cons.mp ht with rfl | ht
            · exact .inr hclean
            · exact houts.2 t ht

/-- Every token of `tokenize` is a legal core match or a kept unmatched
stretch; every non-final token is a core match or clean junk. -/
theorem tokenize_tokens (s : String) :
    (∀ t ∈ tokenize s, CoreTok t.data ∨ JunkTok t.data) ∧
    (∀ t ∈ (tokenize s).dropLast, CoreTok t.data ∨ CleanJunk t.data) :=
  scanAux_tokens (pad s.data).length (pad s.data) le_rfl []
    (pendInv_nil _)

/-- A token of the stream sitting at a non-final index is a core match
or clean junk. -/
theorem originTok_core_or_clean {s : String} {t : String}
    (h : originTok (tokenize s) t) :
    CoreTok t.data ∨ CleanJunk t.data := by
  obtain ⟨i, hget, hlt⟩ := h
  refine (tokenize_tokens s).2 t ?_
  rw [List.dropLast_eq_take]
  have : ((tokenize s).take ((tokenize s).length - 1)).get? i = some t := by
    rw [List.get?_take (by omega)]
    exact hget
  exact List.get?_mem this


/-! ## Claim C2: what the tokenizer actually emits -/

/-- A core token is one of the legal token shapes of the lexicon. -/
theorem coreTok_legalShape {t : String} (h : CoreTok t.data) :
    legalTokenShape t = true := by
  obtain ⟨d⟩ := t
  cases d with
  | nil => cases h
  | cons c cs =>
    rcases matchCore_cases h with
      ⟨he, -, hc⟩ | ⟨-, hr, h3⟩ | ⟨-, hr, h4⟩ | ⟨he, -, -, rfl⟩
    · obtain rfl : cs = [] := by simpa using congrArg List.length he
      rcases hc with rfl | rfl | rfl | rfl | rfl | rfl | rfl <;> rfl
    · have hall : ∀ x ∈ cs, lowerCont x = true := by
        intro x hx
        exact List.dropWhile_eq_nil_iff.mp hr.symm x hx
      simp only [legalTokenShape, lowerIdentShape, Bool.or_eq_true]
      refine .inl (.inr ?_)
      simp only [h3, Bool.true_and]
      exact List.all_eq_true.mpr hall
    · have hall : ∀ x ∈ cs, upperCont x = true := by
        intro x hx
        exact List.dropWhile_eq_nil_iff.mp hr.symm x hx
      simp only [legalTokenShape, upperIdentShape, Bool.or_eq_true]
      refine .inr ?_
      simp only [h4, Bool.true_and]
      exact List.all_eq_true.mpr hall
    · obtain rfl : cs = ['>'] := by
        have := congrArg List.tail he
        simpa using this
      rfl

/-- A core token starts with a non-whitespace character, hence is not
pure whitespace. -/
theorem coreTok_not_space {t : String} (h : CoreTok t.data) :
    t.data ≠ [] ∧ t.data.all pyIsSpace = false := by
  obtain ⟨d⟩ := t
  cases d with
  | nil => cases h
  | cons c cs =>
    refine ⟨List.cons_ne_nil _ _, ?_⟩
    suffices hc : pyIsSpace c = false by
      simp [hc]
    rcases matchCore_cases h with
      ⟨-, -, hc⟩ | ⟨-, -, h3⟩ | ⟨-, -, h4⟩ | ⟨-, -, -, rfl⟩
    · rcases hc with rfl | rfl | rfl | rfl | rfl | rfl | rfl <;> rfl
    · have h3' := asciiLower_iff.mp h3
      cases hsp : pyIsSpace c with
      | false => rfl
      | true => have := pyIsSpace_iff.mp hsp; omega
    · have h4' := asciiUpper_iff.mp h4
      cases hsp : pyIsSpace c with
      | false => rfl
      | true => have := pyIsSpace_iff.mp hsp; omega
    · rfl

/-- C2 (amended): tokenization is total and never fails, and every
emitted token is nonempty and not pure whitespace; but a character
sequence matching none of the lexical rules is not dropped — it is kept
verbatim in the stream as an unmatched-stretch token, so the stream is
not restricted to the legal shapes. -/
theorem tokenize_total_shapes (s : String) :
    ∀ t ∈ tokenize s, t.data ≠ [] ∧ t.data.all pyIsSpace = false ∧
      (legalTokenShape t = true ∨ JunkTok t.data) := by
  intro t ht
  rcases (tokenize_tokens s).1 t ht with hc | hj
  · obtain ⟨h1, h2⟩ := coreTok_not_space hc
    exact ⟨h1, h2, .inl (coreTok_legalShape hc)⟩
  · exact ⟨hj.1, hj.2.1, .inr hj⟩

/-- Instance of the amended C2 at the junk token `"1"` of input `"1x"`. -/
theorem tokenize_total_shapes_witness :
    ("1" : String).data ≠ [] ∧ ("1" : String).data.all pyIsSpace = false ∧
      (legalTokenShape "1" = true ∨ JunkTok ("1" : String).data) :=
  tokenize_total_shapes "1x" "1" (by decide)

/-- Counterexample to C2 as stated: the unmatched character `1` of input
`"1x"` is not dropped; it appears as a token, and it has none of the
legal token shapes. -/
theorem tokenize_keeps_junk_counterexample :
    tokenize "1x" = ["1", "x"] ∧ legalTokenShape "1" = false :=
  ⟨rfl, rfl⟩


/-! ## Counterexamples for the corrected claims -/

/-- Counterexample to C1 as stated: `"~P(x)"` parses successfully, but
its canonical rendering `"~(P(x))"` does not re-parse — the grammar's
parenthesized form demands a binary operator, so the redundant
parentheses introduced by `Negation.__repr__` are rejected. -/
theorem roundtrip_fails_counterexample :
    parse "~P(x)" = .ok (.Negation (.Predicate "P" [.Variable "x"])) ∧
    render (.Negation (.Predicate "P" [.Variable "x"])) = "~(P(x))" ∧
    parse "~(P(x))" = .error ⟨"Unexpected token for a formula: None"⟩ :=
  ⟨rfl, rfl, rfl⟩

/-- Counterexample to C3 as stated: the failure of `parse "("` (premature
end of input at the formula dispatch) is reported with a message that
contains no digit at all — no token index and no token count is carried
by the error, whose only payload is the message string. -/
theorem error_without_position_counterexample :
    parse "(" = .error ⟨"Unexpected token for a formula: None"⟩ ∧
    containsDigit "Unexpected token for a formula: None" = false ∧
    (tokenize "(").length = 1 :=
  ⟨rfl, rfl, rfl⟩

/-- Counterexample to C4 as stated: in `"(P(x) x)"` the operator token
consumed after the left formula is `x`, which is not `&`, `|` or `->`,
yet the parse fails with the formula-dispatch error raised while parsing
the right operand — not with an "unknown binary operator" error, which
is only checked after the right formula and the `)` have been parsed. -/
theorem late_operator_check_counterexample :
    parse "(P(x) x)" = .error ⟨"Unexpected token for a formula: )"⟩ ∧
    ∀ op : String, ("Unexpected token for a formula: )" : String)
        ≠ "Unknown binary operator: " ++ op := by
  refine ⟨rfl, ?_⟩
  intro op h
  have h2 := congrArg (fun m : String => m.data.get? 2) h
  simp only [String.data_append] at h2
  cases h2

/-- Counterexample to C5 as stated: `é` (U+00E9) passes Python's
Unicode-aware `islower()` but does not match `[a-z][a-z0-9]*`, so
`parse "P(é)"` succeeds and stores a `Variable` whose name has none of
the claimed identifier shapes; nothing is enforced at construction. -/
theorem nonascii_name_counterexample :
    parse "P(é)" = .ok (.Predicate "P" [.Variable "é"]) ∧
    lowerIdentShape "é" = false ∧
    namesShaped (.Predicate "P" [.Variable "é"]) = false :=
  ⟨rfl, rfl, rfl⟩


/-! ## Claim C5: name shapes under ASCII input -/

/-- Characters of emitted tokens come from the scanned text (or the
pending buffer). -/
theorem scanAux_chars :
    ∀ n cs, cs.length ≤ n → ∀ pending t, t ∈ scanAux pending cs →
      ∀ c ∈ t.data, c ∈ pending ∨ c ∈ cs := by
  intro n
  induction n with
  | zero =>
    intro cs hcs pending t ht c hc
    have : cs = [] := List.length_eq_zero.mp (by omega)
    subst this
    rw [scanAux_nil] at ht
    unfold flushPending at ht
    split_ifs at ht
    · simp at ht
    · rcases List.mem_singleton.mp ht with rfl
      exact .inl hc
  | succ n ih =>
    intro cs hcs pending t ht c hc
    cases cs with
    | nil =>
      rw [scanAux_nil] at ht
      unfold flushPending at ht
      split_ifs at ht
      · simp at ht
      · rcases List.mem_singleton.mp ht with rfl
        exact .inl hc
    | cons c0 cs' =>
      simp only [List.length_cons] at hcs
      rw [scanAux_cons] at ht
      cases hm : tryMatch (c0 :: cs') with
      | none =>
        rw [hm] at ht
        simp only [] at ht
        rcases ih cs' (by omega) (pending ++ [c0]) t ht c hc with h | h
        · rcases List.mem_append.mp h with h | h
          · exact .inl h
          · rcases List.mem_singleton.mp h with rfl
            exact .inr (List.mem_cons_self _ _)
        · exact .inr (List.mem_cons_of_mem _ h)
      | some pr =>
        obtain ⟨tok, rest⟩ := pr
        rw [hm] at ht
        simp only [] at ht
        obtain ⟨r, hmc, hrest⟩ := tryMatch_some hm
        obtain ⟨-, happ⟩ := matchCore_eq_some hmc
        have hsub : tok ++ r ⊆ c0 :: cs' := by
          rw [← happ]
          exact (List.dropWhile_sublist pyIsSpace).subset
        have hlen := (tryMatch_some_length hm).1
        simp only [List.length_cons] at hlen
        unfold flushPending at ht
        have hrec : t ∈ String.mk tok :: scanAux [] rest →
            c ∈ pending ∨ c ∈ c0 :: cs' := by
          intro ht'
          rcases List.mem_cons.mp ht' with rfl | ht'
          · exact .inr (hsub (List.mem_append_left _ hc))
          · rcases ih rest (by omega) [] t ht' c hc with h | h
            · simp at h
            · refine .inr (hsub (List.mem_append_right _ ?_))
              rw [hrest] at h
              exact (List.dropWhile_sublist pyIsSpace).subset h
        split_ifs at ht
        · exact hrec ht
        · rcases List.mem_cons.mp ht with rfl | ht'
          · exact .inl hc
          · exact hrec (by exact ht')

/-- Characters of `tokenize`'s tokens come from the input or are the
spaces inserted by the padding pre-pass. -/
theorem tokenize_chars {s t : String} (ht : t ∈ tokenize s) :
    ∀ c ∈ t.data, c ∈ s.data ∨ c = ' ' := by
  intro c hc
  rcases scanAux_chars (pad s.data).length (pad s.data) le_rfl [] t ht c hc
    with h | h
  · simp at h
  · rcases List.mem_flatMap.mp h with ⟨a, ha, hin⟩
    split_ifs at hin with h1 h2 h3
    · simp at hin
      rcases hin with hx | hx | hx
      · subst hx; exact .inr rfl
      · subst hx; exact .inl (h1 ▸ ha)
      · subst hx; exact .inr rfl
    · simp at hin
      rcases hin with hx | hx | hx
      · subst hx; exact .inr rfl
      · subst hx; exact .inl (h2 ▸ ha)
      · subst hx; exact .inr rfl
    · simp at hin
      rcases hin with hx | hx | hx
      · subst hx; exact .inr rfl
      · subst hx; exact .inl (h3 ▸ ha)
      · subst hx; exact .inr rfl
    · simp at hin
      subst hin
      exact .inl ha

/-- Tokens of an all-ASCII input are all-ASCII. -/
theorem tokenize_ascii {s t : String} (hA : allASCII s = true)
    (ht : t ∈ tokenize s) : ∀ c ∈ t.data, isASCII c = true := by
  intro c hc
  rcases tokenize_chars ht c hc with h | rfl
  · exact List.all_eq_true.mp hA c h
  · rfl

/-- In the ASCII range, Python's cased-character predicates collapse to
the regex letter classes. -/
theorem ascii_cased {c : Char} (hA : isASCII c = true) :
    (pyIsLower c = true → asciiLower c = true) ∧
    (pyIsUpper c = true → asciiUpper c = true) := by
  have hA' : c.toNat < 128 := by simpa [isASCII] using hA
  constructor
  · intro h
    have := pyIsLower_iff.mp h
    exact asciiLower_iff.mpr (by omega)
  · intro h
    have := pyIsUpper_iff.mp h
    exact asciiUpper_iff.mpr (by omega)

/-- An ASCII letter starts a core match, so clean junk made of ASCII
characters contains no cased character at all. -/
theorem cleanJunk_ascii_uncased {t : String} (hcj : CleanJunk t.data)
    (hA : ∀ c ∈ t.data, isASCII c = true) :
    ∀ c ∈ t.data, pyIsLower c = false ∧ pyIsUpper c = false := by
  intro c hc
  have hAc := ascii_cased (hA c hc)
  obtain ⟨u, w, happ⟩ := List.append_of_mem hc
  obtain ⟨-, hmc⟩ := hcj.2 u (c :: w) happ (List.cons_ne_nil _ _)
  have key : ∀ hlet : asciiLower c = true ∨ asciiUpper c = true, False := by
    intro hlet
    have hsp : pyIsSpace c = false := by
      cases hsp : pyIsSpace c with
      | false => rfl
      | true =>
        have h1 := pyIsSpace_iff.mp hsp
        rcases hlet with h2 | h2
        · have := asciiLower_iff.mp h2; omega
        · have := asciiUpper_iff.mp h2; omega
    rw [List.dropWhile_cons_of_neg (by simp [hsp])] at hmc
    have hne1 : c ≠ '(' := by
      rintro rfl
      rcases hlet with h2 | h2 <;> exact absurd h2 (by decide)
    have hne2 : c ≠ ')' := by
      rintro rfl
      rcases hlet with h2 | h2 <;> exact absurd h2 (by decide)
    rcases hlet with h2 | h2
    · rw [matchCore_cons, if_neg hne1, if_neg hne2, if_pos h2] at hmc
      cases hmc
    · have h3 : asciiLower c = false := by
        cases h3 : asciiLower c with
        | false => rfl
        | true =>
          have ha := asciiLower_iff.mp h3
          have hb := asciiUpper_iff.mp h2
          omega
      rw [matchCore_cons, if_neg hne1, if_neg hne2, if_neg (by simp [h3]),
        if_pos h2] at hmc
      cases hmc
  constructor
  · cases hl : pyIsLower c with
    | false => rfl
    | true => exact absurd (.inl (hAc.1 hl)) (fun h => key h)
  · cases hl : pyIsUpper c with
    | false => rfl
    | true => exact absurd (.inr (hAc.2 hl)) (fun h => key h)


/-- A core token whose first character is lowercase (in Python's sense)
is a lowercase identifier. -/
theorem core_headLower_shape {t : String} (hc : CoreTok t.data)
    (hl : headLower t = true) : lowerIdentShape t = true := by
  obtain ⟨d⟩ := t
  cases d with
  | nil => cases hc
  | cons c cs =>
    have hl' : pyIsLower c = true := hl
    rcases matchCore_cases hc with
      ⟨he, -, hcc⟩ | ⟨-, hr, h3⟩ | ⟨-, hr, h4⟩ | ⟨-, -, -, rfl⟩
    · rcases hcc with rfl | rfl | rfl | rfl | rfl | rfl | rfl <;>
        exact absurd hl' (by decide)
    · simp only [lowerIdentShape, Bool.and_eq_true]
      refine ⟨h3, List.all_eq_true.mpr ?_⟩
      intro x hx
      exact List.dropWhile_eq_nil_iff.mp hr.symm x hx
    · have := pyIsLower_iff.mp hl'
      have := asciiUpper_iff.mp h4
      omega
    · exact absurd hl' (by decide)

/-- A core token whose first character is uppercase (in Python's sense)
is an uppercase identifier. -/
theorem core_headUpper_shape {t : String} (hc : CoreTok t.data)
    (hu : headUpper t = true) : upperIdentShape t = true := by
  obtain ⟨d⟩ := t
  cases d with
  | nil => cases hc
  | cons c cs =>
    have hu' : pyIsUpper c = true := hu
    rcases matchCore_cases hc with
      ⟨he, -, hcc⟩ | ⟨-, hr, h3⟩ | ⟨-, hr, h4⟩ | ⟨-, -, -, rfl⟩
    · rcases hcc with rfl | rfl | rfl | rfl | rfl | rfl | rfl <;>
        exact absurd hu' (by decide)
    · have := pyIsUpper_iff.mp hu'
      have := asciiLower_iff.mp h3
      omega
    · simp only [upperIdentShape, Bool.and_eq_true]
      refine ⟨h4, List.all_eq_true.mpr ?_⟩
      intro x hx
      exact List.dropWhile_eq_nil_iff.mp hr.symm x hx
    · exact absurd hu' (by decide)

/-- A core token that passes `str.islower` as a whole is a lowercase
identifier. -/
theorem core_strLower_shape {t : String} (hc : CoreTok t.data)
    (hl : pyStrIsLower t = true) : lowerIdentShape t = true := by
  obtain ⟨d⟩ := t
  cases d with
  | nil => cases hc
  | cons c cs =>
    simp only [pyStrIsLower, Bool.and_eq_true, Bool.not_eq_true',
      List.any_eq_false] at hl
    obtain ⟨hany, hnoup⟩ := hl
    rcases matchCore_cases hc with
      ⟨he, -, hcc⟩ | ⟨-, hr, h3⟩ | ⟨-, hr, h4⟩ | ⟨he, -, -, rfl⟩
    · obtain rfl : cs = [] := by simpa using congrArg List.length he
      rcases hcc with rfl | rfl | rfl | rfl | rfl | rfl | rfl <;>
        exact absurd hany (by decide)
    · simp only [lowerIdentShape, Bool.and_eq_true]
      refine ⟨h3, List.all_eq_true.mpr ?_⟩
      intro x hx
      exact List.dropWhile_eq_nil_iff.mp hr.symm x hx
    · have h4' : pyIsUpper c = true := by
        have := asciiUpper_iff.mp h4
        exact pyIsUpper_iff.mpr (.inl (by omega))
      exact absurd h4' (by simp [hnoup c (List.mem_cons_self _ _)])
    · obtain rfl : cs = ['>'] := by simpa using congrArg List.tail he
      exact absurd hany (by decide)

/-- A non-final token of an ASCII stream whose head passes `islower()`
matches `[a-z][a-z0-9]*`. -/
theorem token_shape_headLower {s t : String} (hA : allASCII s = true)
    (horig : originTok (tokenize s) t) (hl : headLower t = true) :
    lowerIdentShape t = true := by
  rcases originTok_core_or_clean horig with hc | hj
  · exact core_headLower_shape hc hl
  · exfalso
    obtain ⟨i, hget, -⟩ := horig
    have hmem : t ∈ tokenize s := List.get?_mem hget
    obtain ⟨d⟩ := t
    cases d with
    | nil => exact absurd rfl hj.1
    | cons c cs =>
      have := (cleanJunk_ascii_uncased hj (tokenize_ascii hA hmem)
        c (List.mem_cons_self _ _)).1
      have hl' : pyIsLower c = true := hl
      rw [hl'] at this
      cases this

/-- A non-final token of an ASCII stream whose head passes `isupper()`
matches `[A-Z][A-Z0-9]*`. -/
theorem token_shape_headUpper {s t : String} (hA : allASCII s = true)
    (horig : originTok (tokenize s) t) (hu : headUpper t = true) :
    upperIdentShape t = true := by
  rcases originTok_core_or_clean horig with hc | hj
  · exact core_headUpper_shape hc hu
  · exfalso
    obtain ⟨i, hget, -⟩ := horig
    have hmem : t ∈ tokenize s := List.get?_mem hget
    obtain ⟨d⟩ := t
    cases d with
    | nil => exact absurd rfl hj.1
    | cons c cs =>
      have := (cleanJunk_ascii_uncased hj (tokenize_ascii hA hmem)
        c (List.mem_cons_self _ _)).2
      have hu' : pyIsUpper c = true := hu
      rw [hu'] at this
      cases this

/-- A non-final token of an ASCII stream that passes `str.islower` as a
whole matches `[a-z][a-z0-9]*`. -/
theorem token_shape_strLower {s t : String} (hA : allASCII s = true)
    (horig : originTok (tokenize s) t) (hl : pyStrIsLower t = true) :
    lowerIdentShape t = true := by
  rcases originTok_core_or_clean horig with hc | hj
  · exact core_strLower_shape hc hl
  · exfalso
    obtain ⟨i, hget, -⟩ := horig
    have hmem : t ∈ tokenize s := List.get?_mem hget
    simp only [pyStrIsLower, Bool.and_eq_true, List.any_eq_true] at hl
    obtain ⟨⟨c, hcmem, hcl⟩, -⟩ := hl
    have := (cleanJunk_ascii_uncased hj (tokenize_ascii hA hmem)
      c hcmem).1
    rw [hcl] at this
    cases this

mutual

theorem SOut_namesShaped {s : String} (hA : allASCII s = true) :
    ∀ f, SOut (tokenize s) f → namesShaped f = true
  | .Variable _, h => h.elim
  | .Constant _, h => h.elim
  | .Predicate n ts, h => by
    obtain ⟨-, -, h3⟩ := h
    simp only [namesShaped]
    exact SLTerms_namesShaped hA ts h3
  | .Negation f, h => by
    simp only [namesShaped]
    exact SOut_namesShaped hA f h
  | .Conjunction l r, h => by
    obtain ⟨hl, hr⟩ := h
    simp only [namesShaped, Bool.and_eq_true]
    exact ⟨SOut_namesShaped hA l hl, SOut_namesShaped hA r hr⟩
  | .Disjunction l r, h => by
    obtain ⟨hl, hr⟩ := h
    simp only [namesShaped, Bool.and_eq_true]
    exact ⟨SOut_namesShaped hA l hl, SOut_namesShaped hA r hr⟩
  | .Implication l r, h => by
    obtain ⟨hl, hr⟩ := h
    simp only [namesShaped, Bool.and_eq_true]
    exact ⟨SOut_namesShaped hA l hl, SOut_namesShaped hA r hr⟩
  | .Forall v b, h => by
    obtain ⟨hv, hb⟩ := h
    cases v with
    | Variable n =>
      obtain ⟨hlow, horig⟩ := hv
      simp only [namesShaped, Bool.and_eq_true]
      exact ⟨token_shape_strLower hA horig hlow,
        SOut_namesShaped hA b hb⟩
    | Constant n => exact hv.elim
    | Predicate n ts => exact hv.elim
    | Negation f => exact hv.elim
    | Conjunction l r => exact hv.elim
    | Disjunction l r => exact hv.elim
    | Implication l r => exact hv.elim
    | Forall v' b' => exact hv.elim
    | Exists v' b' => exact hv.elim
  | .Exists v b, h => by
    obtain ⟨hv, hb⟩ := h
    cases v with
    | Variable n =>
      obtain ⟨hlow, horig⟩ := hv
      simp only [namesShaped, Bool.and_eq_true]
      exact ⟨token_shape_strLower hA horig hlow,
        SOut_namesShaped hA b hb⟩
    | Constant n => exact hv.elim
    | Predicate n ts => exact hv.elim
    | Negation f => exact hv.elim
    | Conjunction l r => exact hv.elim
    | Disjunction l r => exact hv.elim
    | Implication l r => exact hv.elim
    | Forall v' b' => exact hv.elim
    | Exists v' b' => exact hv.elim

theorem SLTerms_namesShaped {s : String} (hA : allASCII s = true) :
    ∀ ts, SLTerms (tokenize s) ts → namesShapedList ts = true
  | [], _ => rfl
  | t :: ts, h => by
    obtain ⟨ht, hts⟩ := h
    simp only [namesShapedList, Bool.and_eq_true]
    refine ⟨?_, SLTerms_namesShaped hA ts hts⟩
    cases t with
    | Variable n =>
      obtain ⟨hl, horig⟩ := ht
      exact token_shape_headLower hA horig hl
    | Constant n =>
      obtain ⟨hu, -, horig⟩ := ht
      exact token_shape_headUpper hA horig hu
    | Predicate n ts' => exact ht.elim
    | Negation f => exact ht.elim
    | Conjunction l r => exact ht.elim
    | Disjunction l r => exact ht.elim
    | Implication l r => exact ht.elim
    | Forall v b => exact ht.elim
    | Exists v b => exact ht.elim

end

/-- C5 (amended): for inputs made of ASCII characters only, every
`Variable` name in a successfully parsed AST matches `[a-z][a-z0-9]*`
exactly, and every `Constant` name matches `[A-Z][A-Z0-9]*` exactly —
for nodes built by the term production and the quantifier production
alike.  (The source enforces nothing at node construction, and with
non-ASCII cased characters the shapes can be violated; see the
counterexample.) -/
theorem parse_names_shaped (s : String) (f : Formula)
    (hA : allASCII s = true) (h : parse s = .ok f) :
    namesShaped f = true := by
  obtain ⟨p, hok, -⟩ := parse_ok_inv h
  exact SOut_namesShaped hA f
    ((parseSoundAll (tokenize s) ((tokenize s).length + 2)).1 0 f p hok)

/-- Instance of the amended C5 on the spec's worked example. -/
theorem parse_names_shaped_witness :
    allASCII "forall x. (P(x) -> Q(x, A))" = true ∧
    namesShaped (.Forall (.Variable "x")
      (.Implication (.Predicate "P" [.Variable "x"])
        (.Predicate "Q" [.Variable "x", .Constant "A"]))) = true :=
  ⟨by decide, parse_names_shaped "forall x. (P(x) -> Q(x, A))" _
    (by decide) rfl⟩


/-! ## Claim C4: when the unknown-binary-operator error is reported -/

theorem consumeP_of_peek {toks : List String} {pos : Nat} {e : String}
    (h : peek toks pos = some e) :
    consumeP toks pos (some e) = .ok e (pos + 1) := by
  simp [consumeP, h]

/-- C4 (amended): after `(` and a successful left formula, exactly one
operator token is consumed, and the parse can only succeed if it is `&`,
`|` or `->`; but the check is performed only after the right formula and
the closing `)` have been parsed, so the "unknown binary operator" error
is reported exactly when those also succeed — otherwise their own
(earlier) error is reported instead. -/
theorem binary_operator_check (toks : List String) (fuel : Nat) :
    (∀ pos f p, peek toks pos = some "(" →
      parseFormulaF toks (fuel + 1) pos = .ok f p →
      ∃ left pos2 op, parseFormulaF toks fuel (pos + 1) = .ok left pos2 ∧
        peek toks pos2 = some op ∧
        (op = "&" ∨ op = "|" ∨ op = "->")) ∧
    (∀ pos left pos2 op right pos4,
      peek toks pos = some "(" →
      parseFormulaF toks fuel (pos + 1) = .ok left pos2 →
      peek toks pos2 = some op →
      op ≠ "&" → op ≠ "|" → op ≠ "->" →
      parseFormulaF toks fuel (pos2 + 1) = .ok right pos4 →
      peek toks pos4 = some ")" →
      parseFormulaF toks (fuel + 1) pos =
        .err ⟨"Unknown binary operator: " ++ op⟩) := by
  constructor
  · intro pos f p hpk h
    simp only [parseFormulaF, hpk, if_pos] at h
    rw [consumeP_of_peek hpk] at h
    simp only [pbind_ok] at h
    obtain ⟨left, pos2, hL, h⟩ := pbind_ok_inv h
    obtain ⟨op, pos3, hc2, h⟩ := pbind_ok_inv h
    obtain ⟨hpk2, hq3⟩ := consumeP_ok_none hc2
    obtain ⟨right, pos4, hR, h⟩ := pbind_ok_inv h
    obtain ⟨c, pos5, hc3, h⟩ := pbind_ok_inv h
    refine ⟨left, pos2, op, hL, hpk2, ?_⟩
    by_cases ho1 : op = "&"
    · exact .inl ho1
    by_cases ho2 : op = "|"
    · exact .inr (.inl ho2)
    by_cases ho3 : op = "->"
    · exact .inr (.inr ho3)
    rw [if_neg ho1, if_neg ho2, if_neg ho3] at h
    cases h
  · intro pos left pos2 op right pos4 hpk hL hpk2 ho1 ho2 ho3 hR hrp
    simp only [parseFormulaF, hpk, if_pos]
    rw [consumeP_of_peek hpk]
    simp only [pbind_ok]
    rw [hL]
    simp only [pbind_ok]
    have hc2 : consumeP toks pos2 none = .ok op (pos2 + 1) := by
      simp [consumeP, hpk2]
    rw [hc2]
    simp only [pbind_ok]
    rw [hR]
    simp only [pbind_ok]
    rw [consumeP_of_peek hrp]
    simp only [pbind_ok]
    rw [if_neg ho1, if_neg ho2, if_neg ho3]

/-- Instance of the amended C4 on `"(P(x) , Q(x))"`: the operator token
is `,`, the right formula and `)` parse, and the reported error is the
unknown-binary-operator one. -/
theorem binary_operator_check_witness :
    parseFormulaF (tokenize "(P(x) , Q(x))") 13 0 =
      .err ⟨"Unknown binary operator: ,"⟩ :=
  (binary_operator_check (tokenize "(P(x) , Q(x))") 12).2 0
    (.Predicate "P" [.Variable "x"]) 5 "," (.Predicate "Q" [.Variable "x"])
    10 rfl rfl rfl (by decide) (by decide) (by decide) rfl rfl


theorem parseTermP_bounds {toks : List String} {pos : Nat} {f : Formula}
    {p : Nat} (h : parseTermP toks pos = .ok f p) :
    pos < p ∧ p ≤ toks.length := by
  obtain ⟨tok, hpk, hq, -⟩ := parseTermP_ok h
  have := peek_lt hpk
  omega

/-- Success positions advance and stay within the stream, for any fuel. -/
theorem parseBoundsAll (toks : List String) (fuel : Nat) :
    (∀ pos f p, parseFormulaF toks fuel pos = .ok f p →
      pos < p ∧ p ≤ toks.length) ∧
    (∀ pos f p, parseQuantifierF toks fuel pos = .ok f p →
      pos < p ∧ p ≤ toks.length) ∧
    (∀ pos f p, parsePredicateF toks fuel pos = .ok f p →
      pos < p ∧ p ≤ toks.length) ∧
    (∀ pos ts p, parseTermsF toks fuel pos = .ok ts p →
      pos < p ∧ p ≤ toks.length) := by
  induction fuel with
  | zero =>
    refine ⟨?_, ?_, ?_, ?_⟩
    · intro pos f p h; cases h
    · intro pos f p h; cases h
    · intro pos f p h; cases h
    · intro pos ts p h; cases h
  | succ fuel ih =>
    obtain ⟨ihF, ihQ, ihP, ihT⟩ := ih
    refine ⟨?_, ?_, ?_, ?_⟩
    · intro pos f p h
      simp only [parseFormulaF] at h
      by_cases h1 : peek toks pos = some "("
      · rw [if_pos h1] at h
        have hlt := peek_lt h1
        obtain ⟨a, q, hc1, h⟩ := pbind_ok_inv h
        obtain ⟨-, -, hq⟩ := consumeP_ok_some hc1
        subst hq
        obtain ⟨left, pos2, hL, h⟩ := pbind_ok_inv h
        obtain ⟨hb1, hb2⟩ := ihF _ _ _ hL
        obtain ⟨op, pos3, hc2, h⟩ := pbind_ok_inv h
        obtain ⟨hpk2, hq3⟩ := consumeP_ok_none hc2
        have hlt2 := peek_lt hpk2
        subst hq3
        obtain ⟨right, pos4, hR, h⟩ := pbind_ok_inv h
        obtain ⟨hb3, hb4⟩ := ihF _ _ _ hR
        obtain ⟨c, pos5, hc3, h⟩ := pbind_ok_inv h
        obtain ⟨-, hpk3, hq5⟩ := consumeP_ok_some hc3
        have hlt3 := peek_lt hpk3
        subst hq5
        split_ifs at h <;> cases h <;> omega
      · rw [if_neg h1] at h
        by_cases h2 : peek toks pos = some "~"
        · rw [if_pos h2] at h
          have hlt := peek_lt h2
          obtain ⟨a, q, hc1, h⟩ := pbind_ok_inv h
          obtain ⟨-, -, hq⟩ := consumeP_ok_some hc1
          subst hq
          obtain ⟨f', pos2, hL, h⟩ := pbind_ok_inv h
          obtain ⟨hb1, hb2⟩ := ihF _ _ _ hL
          cases h
          omega
        · rw [if_neg h2] at h
          by_cases h3 : peek toks pos = some "forall" ∨
              peek toks pos = some "exists"
          · rw [if_pos h3] at h
            exact ihQ _ _ _ h
          · rw [if_neg h3] at h
            by_cases h4 : startsUpper (peek toks pos) = true
            · rw [if_pos h4] at h
              exact ihP _ _ _ h
            · rw [if_neg h4] at h
              cases h
    · intro pos f p h
      simp only [parseQuantifierF] at h
      obtain ⟨qt, pos1, hc1, h⟩ := pbind_ok_inv h
      obtain ⟨hpk1, hq1⟩ := consumeP_ok_none hc1
      have hlt1 := peek_lt hpk1
      subst hq1
      obtain ⟨vn, pos2, hc2, h⟩ := pbind_ok_inv h
      obtain ⟨hpk2, hq2⟩ := consumeP_ok_none hc2
      have hlt2 := peek_lt hpk2
      subst hq2
      by_cases hvl : pyStrIsLower vn = true
      · rw [if_pos hvl] at h
        obtain ⟨c, pos3, hc3, h⟩ := pbind_ok_inv h
        obtain ⟨-, hpk3, hq3⟩ := consumeP_ok_some hc3
        have hlt3 := peek_lt hpk3
        subst hq3
        obtain ⟨body, pos4, hB, h⟩ := pbind_ok_inv h
        obtain ⟨hb1, hb2⟩ := ihF _ _ _ hB
        split_ifs at h <;> cases h <;> omega
      · rw [if_neg hvl] at h
        cases h
    · intro pos f p h
      simp only [parsePredicateF] at h
      obtain ⟨name, pos1, hc1, h⟩ := pbind_ok_inv h
      obtain ⟨hpk1, hq1⟩ := consumeP_ok_none hc1
      have hlt1 := peek_lt hpk1
      subst hq1
      obtain ⟨c, pos2, hc2, h⟩ := pbind_ok_inv h
      obtain ⟨-, hpk2, hq2⟩ := consumeP_ok_some hc2
      have hlt2 := peek_lt hpk2
      subst hq2
      obtain ⟨terms, pos3, hts, h⟩ := pbind_ok_inv h
      have hb3 : pos + 1 + 1 ≤ pos3 ∧ pos3 ≤ toks.length := by
        by_cases hcl : peek toks (pos + 1 + 1) = some ")"
        · rw [if_pos hcl] at hts
          cases hts
          omega
        · rw [if_neg hcl] at hts
          have := ihT _ _ _ hts
          omega
      obtain ⟨c2, pos4, hc3, h⟩ := pbind_ok_inv h
      obtain ⟨-, hpk3, hq4⟩ := consumeP_ok_some hc3
      have hlt3 := peek_lt hpk3
      subst hq4
      cases h
      omega
    · intro pos ts p h
      simp only [parseTermsF] at h
      obtain ⟨t, pos1, hT, h⟩ := pbind_ok_inv h
      obtain ⟨hb1, hb2⟩ := parseTermP_bounds hT
      by_cases hcl : peek toks pos1 = some ")"
      · rw [if_pos hcl] at h
        cases h
        omega
      · rw [if_neg hcl] at h
        obtain ⟨c, pos2, hc2, h⟩ := pbind_ok_inv h
        obtain ⟨-, hpk2, hq2⟩ := consumeP_ok_some hc2
        have hlt2 := peek_lt hpk2
        subst hq2
        obtain ⟨ts', pos3, hTs, h⟩ := pbind_ok_inv h
        have := ihT _ _ _ hTs
        cases h
        omega

/-! ## Claim C3: what a ParseError carries -/

/-- The fixed families of error messages the parser can raise.  Only the
expected-literal mismatch family (raised by `_consume` with an expected
token) embeds a position: the zero-based index `p` at which the failure
was detected, which equals the token count when the stream ran out while
a specific literal was expected.  Every other family omits the position. -/
def ErrMsgFamily (toks : List String) (m : String) : Prop :=
  (∃ e p, p ≤ toks.length ∧
    m = "Expected '" ++ e ++ "' but found '" ++ showTok (peek toks p)
          ++ "' at position " ++ toString p) ∨
  m = "Unexpected end of input" ∨
  (∃ op, m = "Unknown binary operator: " ++ op) ∨
  (∃ vn, m = "Expected a lowercase variable after quantifier, but got '"
               ++ vn ++ "'") ∨
  (∃ tk, m = "Unexpected token for a formula: " ++ showTok tk) ∨
  m = "Unexpected end of input, expected a term." ∨
  (∃ tk, m = "Invalid term: " ++ tk) ∨
  (∃ tk, m = "Unexpected token '" ++ tk ++ "' at end of expression")

theorem consumeP_err {toks : List String} {pos : Nat}
    {expected : Option String} {e : ParseError}
    (h : consumeP toks pos expected = .err e) (hle : pos ≤ toks.length) :
    ErrMsgFamily toks e.msg := by
  unfold consumeP at h
  cases expected with
  | some ex =>
    simp only [] at h
    by_cases hp : peek toks pos = some ex
    · rw [if_pos hp] at h; cases h
    · rw [if_neg hp] at h
      cases h
      exact .inl ⟨ex, pos, hle, rfl⟩
  | none =>
    simp only [] at h
    cases hp : peek toks pos with
    | none => rw [hp] at h; simp only [] at h; cases h; exact .inr (.inl rfl)
    | some t => rw [hp] at h; simp only [] at h; cases h

theorem parseTermP_err {toks : List String} {pos : Nat} {e : ParseError}
    (h : parseTermP toks pos = .err e) : ErrMsgFamily toks e.msg := by
  unfold parseTermP at h
  cases hp : peek toks pos with
  | none =>
    rw [hp] at h
    cases h
    exact .inr (.inr (.inr (.inr (.inr (.inl rfl)))))
  | some t =>
    rw [hp] at h
    simp only [] at h
    cases ht : t.data with
    | nil =>
      rw [ht] at h
      simp only [] at h
      cases h
      exact .inr (.inr (.inr (.inr (.inr (.inl rfl)))))
    | cons c cs =>
      rw [ht] at h
      simp only [] at h
      by_cases h1 : pyIsLower c = true
      · rw [if_pos h1] at h; cases h
      rw [if_neg h1] at h
      by_cases h2 : pyIsUpper c = true
      · rw [if_pos h2] at h; cases h
      rw [if_neg h2] at h
      cases h
      exact .inr (.inr (.inr (.inr (.inr (.inr (.inl ⟨t, rfl⟩))))))

theorem pbind_err_inv {α β : Type} {r : POut α} {k : α → Nat → POut β}
    {e : ParseError} (h : pbind r k = .err e) :
    r = .err e ∨ ∃ a q, r = .ok a q ∧ k a q = .err e := by
  cases r with
  | ok a q => exact .inr ⟨a, q, rfl, h⟩
  | err e' => cases h; exact .inl rfl
  | fuelOut => cases h

/-- The joint error-message statement for the four fuelled productions. -/
theorem parseErrAll (toks : List String) (fuel : Nat) :
    (∀ pos e, pos ≤ toks.length →
      parseFormulaF toks fuel pos = .err e → ErrMsgFamily toks e.msg) ∧
    (∀ pos e, pos ≤ toks.length →
      parseQuantifierF toks fuel pos = .err e → ErrMsgFamily toks e.msg) ∧
    (∀ pos e, pos ≤ toks.length →
      parsePredicateF toks fuel pos = .err e → ErrMsgFamily toks e.msg) ∧
    (∀ pos e, pos ≤ toks.length →
      parseTermsF toks fuel pos = .err e → ErrMsgFamily toks e.msg) := by
  induction fuel with
  | zero =>
    refine ⟨?_, ?_, ?_, ?_⟩
    · intro pos e hle h; cases h
    · intro pos e hle h; cases h
    · intro pos e hle h; cases h
    · intro pos e hle h; cases h
  | succ fuel ih =>
    obtain ⟨ihF, ihQ, ihP, ihT⟩ := ih
    have hAd := parseBoundsAll toks fuel
    refine ⟨?_, ?_, ?_, ?_⟩
    · -- parse_formula
      intro pos e hle h
      simp only [parseFormulaF] at h
      by_cases h1 : peek toks pos = some "("
      · rw [if_pos h1] at h
        have hlt := peek_lt h1
        rcases pbind_err_inv h with hc | ⟨a, q, hc1, h⟩
        · exact consumeP_err hc hle
        obtain ⟨-, -, hq⟩ := consumeP_ok_some hc1
        subst hq
        rcases pbind_err_inv h with hL | ⟨left, pos2, hL, h⟩
        · exact ihF (pos + 1) e (by omega) hL
        obtain ⟨hb1, hb2⟩ := hAd.1 _ _ _ hL
        rcases pbind_err_inv h with hc | ⟨op, pos3, hc2, h⟩
        · exact consumeP_err hc (by omega)
        obtain ⟨hpk2, hq3⟩ := consumeP_ok_none hc2
        have hlt2 := peek_lt hpk2
        subst hq3
        rcases pbind_err_inv h with hR | ⟨right, pos4, hR, h⟩
        · exact ihF (pos2 + 1) e (by omega) hR
        obtain ⟨hb3, hb4⟩ := hAd.1 _ _ _ hR
        rcases pbind_err_inv h with hc | ⟨c, pos5, hc3, h⟩
        · exact consumeP_err hc (by omega)
        split_ifs at h <;> cases h
        exact .inr (.inr (.inl ⟨op, rfl⟩))
      · rw [if_neg h1] at h
        by_cases h2 : peek toks pos = some "~"
        · rw [if_pos h2] at h
          have hlt := peek_lt h2
          rcases pbind_err_inv h with hc | ⟨a, q, hc1, h⟩
          · exact consumeP_err hc hle
          obtain ⟨-, -, hq⟩ := consumeP_ok_some hc1
          subst hq
          rcases pbind_err_inv h with hL | ⟨f', pos2, hL, h⟩
          · exact ihF (pos + 1) e (by omega) hL
          cases h
        · rw [if_neg h2] at h
          by_cases h3 : peek toks pos = some "forall" ∨
              peek toks pos = some "exists"
          · rw [if_pos h3] at h
            exact ihQ pos e hle h
          · rw [if_neg h3] at h
            by_cases h4 : startsUpper (peek toks pos) = true
            · rw [if_pos h4] at h
              exact ihP pos e hle h
            · rw [if_neg h4] at h
              cases h
              exact .inr (.inr (.inr (.inr (.inl ⟨peek toks pos, rfl⟩))))
    · -- parse_quantifier
      intro pos e hle h
      simp only [parseQuantifierF] at h
      rcases pbind_err_inv h with hc | ⟨qt, pos1, hc1, h⟩
      · exact consumeP_err hc hle
      obtain ⟨hpk1, hq1⟩ := consumeP_ok_none hc1
      have hlt1 := peek_lt hpk1
      subst hq1
      rcases pbind_err_inv h with hc | ⟨vn, pos2, hc2, h⟩
      · exact consumeP_err hc (by omega)
      obtain ⟨hpk2, hq2⟩ := consumeP_ok_none hc2
      have hlt2 := peek_lt hpk2
      subst hq2
      by_cases hvl : pyStrIsLower vn = true
      · rw [if_pos hvl] at h
        rcases pbind_err_inv h with hc | ⟨c, pos3, hc3, h⟩
        · exact consumeP_err hc (by omega)
        obtain ⟨-, hpk3, hq3⟩ := consumeP_ok_some hc3
        have hlt3 := peek_lt hpk3
        subst hq3
        rcases pbind_err_inv h with hB | ⟨body, pos4, hB, h⟩
        · exact ihF (pos + 1 + 1 + 1) e (by omega) hB
        split_ifs at h <;> cases h
      · rw [if_neg hvl] at h
        cases h
        exact .inr (.inr (.inr (.inl ⟨vn, rfl⟩)))
    · -- parse_predicate
      intro pos e hle h
      simp only [parsePredicateF] at h
      rcases pbind_err_inv h with hc | ⟨name, pos1, hc1, h⟩
      · exact consumeP_err hc hle
      obtain ⟨hpk1, hq1⟩ := consumeP_ok_none hc1
      have hlt1 := peek_lt hpk1
      subst hq1
      rcases pbind_err_inv h with hc | ⟨c, pos2, hc2, h⟩
      · exact consumeP_err hc (by omega)
      obtain ⟨-, hpk2, hq2⟩ := consumeP_ok_some hc2
      have hlt2 := peek_lt hpk2
      subst hq2
      rcases pbind_err_inv h with hts | ⟨terms, pos3, hts, h⟩
      · by_cases hcl : peek toks (pos + 1 + 1) = some ")"
        · rw [if_pos hcl] at hts; cases hts
        · rw [if_neg hcl] at hts
          exact ihT (pos + 1 + 1) e (by omega) hts
      · have hb3 : pos3 ≤ toks.length := by
          by_cases hcl : peek toks (pos + 1 + 1) = some ")"
          · rw [if_pos hcl] at hts
            cases hts
            omega
          · rw [if_neg hcl] at hts
            exact (hAd.2.2.2 _ _ _ hts).2
        rcases pbind_err_inv h with hc | ⟨c2, pos4, hc3, h⟩
        · exact consumeP_err hc hb3
        cases h
    · -- the predicate-argument loop
      intro pos e hle h
      simp only [parseTermsF] at h
      rcases pbind_err_inv h with hT | ⟨t, pos1, hT, h⟩
      · exact parseTermP_err hT
      obtain ⟨tok, hpk, hq1, -⟩ := parseTermP_ok hT
      have hlt := peek_lt hpk
      subst hq1
      by_cases hcl : peek toks (pos + 1) = some ")"
      · rw [if_pos hcl] at h; cases h
      · rw [if_neg hcl] at h
        rcases pbind_err_inv h with hc | ⟨c, pos2, hc2, h⟩
        · exact consumeP_err hc (by omega)
        obtain ⟨-, hpk2, hq2⟩ := consumeP_ok_some hc2
        have hlt2 := peek_lt hpk2
        subst hq2
        rcases pbind_err_inv h with hTs | ⟨ts, pos3, hTs, h⟩
        · exact ihT (pos + 1 + 1) e (by omega) hTs
        cases h

/-- C3 (amended): every parse failure is a `ParseError` whose only
payload is a human-readable message drawn from the eight fixed families
above.  Only the expected-literal mismatch family embeds the zero-based
token index at which the failure was detected (equal to the token count
when the stream ended while a literal was expected); the other failure
kinds — bare end of input, unknown binary operator, non-lowercase bound
variable, formula-dispatch failure, missing/invalid term, trailing
tokens — omit the position. -/
theorem parse_error_messages (s : String) (e : ParseError)
    (h : parse s = .error e) : ErrMsgFamily (tokenize s) e.msg := by
  simp only [parse] at h
  cases hr : parseFormulaF (tokenize s) ((tokenize s).length + 2) 0 with
  | ok f p =>
    rw [hr] at h
    simp only [] at h
    by_cases hp : p < (tokenize s).length
    · rw [if_pos hp] at h
      cases h
      exact .inr (.inr (.inr (.inr (.inr (.inr (.inr
        ⟨showTok (peek (tokenize s) p), rfl⟩))))))
    · rw [if_neg hp] at h
      cases h
  | err e' =>
    rw [hr] at h
    simp only [] at h
    cases h
    exact (parseErrAll (tokenize s) ((tokenize s).length + 2)).1 0 e
      (by omega) hr
  | fuelOut =>
    have := (parseAdeqAll (tokenize s) ((tokenize s).length + 2)).1 0
      (by omega) (by omega)
    rw [hr] at this
    exact absurd this (by simp [Adeq])

/-- Instance of the amended C3: the error of `parse "forall x P(x)"`
belongs to the expected-literal family, reporting position 2. -/
theorem parse_error_messages_witness :
    ErrMsgFamily (tokenize "forall x P(x)")
      (ParseError.msg ⟨"Expected '.' but found 'P' at position 2"⟩) :=
  parse_error_messages "forall x P(x)" ⟨"Expected '.' but found 'P' at position 2"⟩ rfl


/-! ## Claim C1: round-tripping the canonical rendering

The canonical rendering of a successfully parsed formula re-tokenizes to
the evident token sequence (`flatF`), and, when the formula contains no
negation and no quantifier, re-parsing that sequence rebuilds the same
formula.  (Negations and quantifiers render with a redundant
parenthesized group `(f)` around a single formula, which the grammar
rejects — see the counterexample.) -/

mutual

/-- The token sequence of the canonical rendering of a formula. -/
def flatF : Formula → List String
  | .Variable n => [n]
  | .Constant n => [n]
  | .Predicate n ts => n :: "(" :: (flatTerms ts ++ [")"])
  | .Negation f => "~" :: "(" :: (flatF f ++ [")"])
  | .Conjunction l r => "(" :: (flatF l ++ "&" :: (flatF r ++ [")"]))
  | .Disjunction l r => "(" :: (flatF l ++ "|" :: (flatF r ++ [")"]))
  | .Implication l r => "(" :: (flatF l ++ "->" :: (flatF r ++ [")"]))
  | .Forall v b => "forall" :: (flatF v ++ "." :: "(" :: (flatF b ++ [")"]))
  | .Exists v b => "exists" :: (flatF v ++ "." :: "(" :: (flatF b ++ [")"]))

/-- Token sequence of a comma-separated term list. -/
def flatTerms : List Formula → List String
  | [] => []
  | [t] => flatF t
  | t :: ts => flatF t ++ "," :: flatTerms ts

end

/-- In the Latin-1 model no character is both lowercase and uppercase. -/
theorem pyIsLower_not_upper {c : Char} (h : pyIsLower c = true) :
    pyIsUpper c = false := by
  have h1 := pyIsLower_iff.mp h
  cases h2 : pyIsUpper c with
  | false => rfl
  | true => have := pyIsUpper_iff.mp h2; omega

theorem pyIsUpper_not_lower {c : Char} (h : pyIsUpper c = true) :
    pyIsLower c = false := by
  have h1 := pyIsUpper_iff.mp h
  cases h2 : pyIsLower c with
  | false => rfl
  | true => have := pyIsLower_iff.mp h2; omega

/-- A name as stored by the term production for a `Variable`: a stream
token (one core match or clean junk) whose first character passes
`islower()`. -/
def GoodLowerName (n : String) : Prop :=
  headLower n = true ∧ (CoreTok n.data ∨ CleanJunk n.data)

/-- A name as stored for a predicate or a `Constant`: a stream token
whose first character passes `isupper()` (and, for a `Constant`, failed
`islower()` first). -/
def GoodUpperName (n : String) : Prop :=
  headUpper n = true ∧ headLower n = false ∧
    (CoreTok n.data ∨ CleanJunk n.data)

/-- Invariant of a predicate argument on the rendering side. -/
def GoodTerm : Formula → Prop
  | .Variable n => GoodLowerName n
  | .Constant n => GoodUpperName n
  | _ => False

mutual

/-- The negation- and quantifier-free fragment with well-originated
names: the formulas whose canonical rendering round-trips. -/
def GoodR : Formula → Prop
  | .Predicate n ts => GoodUpperName n ∧ GoodRTerms ts
  | .Conjunction l r => GoodR l ∧ GoodR r
  | .Disjunction l r => GoodR l ∧ GoodR r
  | .Implication l r => GoodR l ∧ GoodR r
  | _ => False

/-- `GoodR`'s companion for term lists. -/
def GoodRTerms : List Formula → Prop
  | [] => True
  | t :: ts => GoodTerm t ∧ GoodRTerms ts

end


theorem peek_middle (pre : List String) (x : String) (rest : List String) :
    peek (pre ++ x :: rest) pre.length = some x := by
  unfold peek
  rw [List.get?_append_right (le_refl _)]
  simp

theorem peek_after (pre mid : List String) (x : String) (post : List String) :
    peek (pre ++ (mid ++ x :: post)) (pre.length + mid.length) = some x := by
  rw [show pre ++ (mid ++ x :: post) = (pre ++ mid) ++ x :: post by simp,
    show pre.length + mid.length = (pre ++ mid).length by simp]
  exact peek_middle _ _ _

theorem consumeP_none_of_peek {toks : List String} {pos : Nat} {t : String}
    (h : peek toks pos = some t) :
    consumeP toks pos none = .ok t (pos + 1) := by
  simp [consumeP, h]

theorem startsUpper_some (n : String) :
    startsUpper (some n) = headUpper n := rfl

theorem ne_of_headUpper {n : String} (h : headUpper n = true) :
    n ≠ "(" ∧ n ≠ "~" ∧ n ≠ "forall" ∧ n ≠ "exists" ∧ n ≠ ")" ∧
      n ≠ "," ∧ n.data ≠ [] := by
  refine ⟨?_, ?_, ?_, ?_, ?_, ?_, ?_⟩ <;> intro he
  · rw [he] at h; exact absurd h (by decide)
  · rw [he] at h; exact absurd h (by decide)
  · rw [he] at h; exact absurd h (by decide)
  · rw [he] at h; exact absurd h (by decide)
  · rw [he] at h; exact absurd h (by decide)
  · rw [he] at h; exact absurd h (by decide)
  · unfold headUpper at h
    rw [he] at h
    cases h

theorem ne_of_headLower {n : String} (h : headLower n = true) :
    n ≠ ")" ∧ n ≠ "," ∧ n.data ≠ [] := by
  refine ⟨?_, ?_, ?_⟩ <;> intro he
  · rw [he] at h; exact absurd h (by decide)
  · rw [he] at h; exact absurd h (by decide)
  · unfold headLower at h
    rw [he] at h
    cases h

theorem goodTerm_flat {t : Formula} (hg : GoodTerm t) :
    ∃ n₁, flatF t = [n₁] ∧ n₁ ≠ ")" ∧ n₁ ≠ "," := by
  cases t with
  | Variable n =>
    obtain ⟨hl, -⟩ := hg
    obtain ⟨h1, h2, -⟩ := ne_of_headLower hl
    exact ⟨n, rfl, h1, h2⟩
  | Constant n =>
    obtain ⟨hu, -, -⟩ := hg
    obtain ⟨-, -, -, -, h1, h2, -⟩ := ne_of_headUpper hu
    exact ⟨n, rfl, h1, h2⟩
  | Predicate n ts => exact hg.elim
  | Negation f => exact hg.elim
  | Conjunction l r => exact hg.elim
  | Disjunction l r => exact hg.elim
  | Implication l r => exact hg.elim
  | Forall v b => exact hg.elim
  | Exists v b => exact hg.elim

theorem flatTerms_cons_ne {t : Formula} {ts : List Formula} (h : ts ≠ []) :
    flatTerms (t :: ts) = flatF t ++ "," :: flatTerms ts := by
  cases ts with
  | nil => exact absurd rfl h
  | cons t' ts' => rfl

theorem parseTermP_flat {toks : List String} {pos : Nat} {t : Formula}
    (hg : GoodTerm t) {n₁ : String} (hf : flatF t = [n₁])
    (hpk : peek toks pos = some n₁) :
    parseTermP toks pos = .ok t (pos + 1) := by
  unfold parseTermP
  rw [hpk]
  cases t with
  | Variable n =>
    obtain ⟨hl, -⟩ := hg
    cases hf
    unfold headLower at hl
    cases hd : n₁.data with
    | nil => rw [hd] at hl; cases hl
    | cons c cs =>
      rw [hd] at hl
      simp only [] at hl
      simp only [hd]
      rw [if_pos hl]
  | Constant n =>
    obtain ⟨hu, hl, -⟩ := hg
    cases hf
    unfold headUpper at hu
    unfold headLower at hl
    cases hd : n₁.data with
    | nil => rw [hd] at hu; cases hu
    | cons c cs =>
      rw [hd] at hu hl
      simp only [] at hu hl
      simp only [hd]
      rw [if_neg (by simp [hl]), if_pos hu]
  | Predicate n ts => exact hg.elim
  | Negation f => exact hg.elim
  | Conjunction l r => exact hg.elim
  | Disjunction l r => exact hg.elim
  | Implication l r => exact hg.elim
  | Forall v b => exact hg.elim
  | Exists v b => exact hg.elim


mutual

/-- Re-parsing the rendered token sequence of a negation- and
quantifier-free formula rebuilds exactly that formula, consuming exactly
its tokens, wherever it occurs in the stream. -/
theorem parseFlat : ∀ f, GoodR f → ∀ (pre post : List String) (fuel : Nat),
    (flatF f).length + 1 ≤ fuel →
    parseFormulaF (pre ++ flatF f ++ post) fuel pre.length
      = .ok f (pre.length + (flatF f).length)
  | .Variable _, hg, _, _, _, _ => hg.elim
  | .Constant _, hg, _, _, _, _ => hg.elim
  | .Negation _, hg, _, _, _, _ => hg.elim
  | .Forall _ _, hg, _, _, _, _ => hg.elim
  | .Exists _ _, hg, _, _, _, _ => hg.elim
  | .Predicate n ts, hg, pre, post, fuel, hfuel => by
    obtain ⟨⟨hnu, hnl, hcc⟩, hts⟩ := hg
    obtain ⟨hne1, hne2, hne3, hne4, hne5, hne6, hne7⟩ := ne_of_headUpper hnu
    have hflen : (flatF (Formula.Predicate n ts)).length
        = (flatTerms ts).length + 3 := by
      simp only [flatF, List.length_cons, List.length_append,
        List.length_singleton, List.length_nil]
    cases fuel with
    | zero => exact absurd hfuel (by omega)
    | succ g =>
      have htoks : pre ++ flatF (Formula.Predicate n ts) ++ post
          = pre ++ n :: "(" :: (flatTerms ts ++ ")" :: post) := by
        simp [flatF]
      rw [htoks]
      have hpk0 := peek_middle pre n ("(" :: (flatTerms ts ++ ")" :: post))
      simp only [parseFormulaF]
      rw [hpk0, if_neg (by simp [hne1]), if_neg (by simp [hne2]),
        if_neg (by simp [hne3, hne4]),
        if_pos (by rw [startsUpper_some]; exact hnu)]
      cases g with
      | zero => exact absurd hfuel (by omega)
      | succ g' =>
        simp only [parsePredicateF]
        rw [consumeP_none_of_peek hpk0]
        simp only [pbind_ok]
        have hpk1 : peek (pre ++ n :: "(" :: (flatTerms ts ++ ")" :: post))
            (pre.length + 1) = some "(" := by
          rw [show pre ++ n :: "(" :: (flatTerms ts ++ ")" :: post)
              = pre ++ ([n] ++ "(" :: (flatTerms ts ++ ")" :: post)) by simp,
            show pre.length + 1 = pre.length + ([n] : List String).length
              by simp]
          exact peek_after _ _ _ _
        rw [consumeP_of_peek hpk1]
        simp only [pbind_ok]
        have hpk2gen : ∀ x rest2,
            flatTerms ts ++ ")" :: post = x :: rest2 →
            peek (pre ++ n :: "(" :: (flatTerms ts ++ ")" :: post))
              (pre.length + 1 + 1) = some x := by
          intro x rest2 hx
          rw [hx,
            show pre ++ n :: "(" :: (x :: rest2)
              = pre ++ ([n, "("] ++ x :: rest2) by simp,
            show pre.length + 1 + 1
              = pre.length + ([n, "("] : List String).length by simp]
          exact peek_after _ _ _ _
        cases ts with
        | nil =>
          have hpk2 : peek (pre ++ n :: "(" :: (flatTerms [] ++ ")" :: post))
              (pre.length + 1 + 1) = some ")" := hpk2gen _ _ rfl
          rw [hpk2, if_pos rfl]
          simp only [pbind_ok]
          rw [consumeP_of_peek hpk2]
          simp only [pbind_ok]
          rw [show pre.length + 1 + 1 + 1
            = pre.length + (flatF (Formula.Predicate n [])).length by
              rw [hflen, show flatTerms ([] : List Formula) = [] from rfl]
              simp only [List.length_nil]]
        | cons t ts' =>
          obtain ⟨hgt, hgts⟩ := hts
          obtain ⟨n₁, hfl1, hn₁r, hn₁c⟩ := goodTerm_flat hgt
          have hshape : ∃ rest', flatTerms (t :: ts') = n₁ :: rest' := by
            cases ts' with
            | nil => exact ⟨[], by rw [show flatTerms [t] = flatF t from rfl,
                hfl1]⟩
            | cons u us =>
              refine ⟨"," :: flatTerms (u :: us), ?_⟩
              rw [flatTerms_cons_ne (by simp), hfl1]
              rfl
          obtain ⟨rest', hrest'⟩ := hshape
          have hpk2 : peek
              (pre ++ n :: "(" :: (flatTerms (t :: ts') ++ ")" :: post))
              (pre.length + 1 + 1) = some n₁ :=
            hpk2gen _ _ (by rw [hrest']; rfl)
          rw [hpk2, if_neg (by simp [hn₁r])]
          have hre : pre ++ n :: "(" :: (flatTerms (t :: ts') ++ ")" :: post)
              = (pre ++ [n, "("]) ++ flatTerms (t :: ts') ++ (")" :: post) := by
            simp
          have hlen2 : pre.length + 1 + 1 = (pre ++ [n, "("]).length := by simp
          rw [hre, hlen2,
            parseFlatTerms (t :: ts') ⟨hgt, hgts⟩ (by simp)
              (pre ++ [n, "("]) post g' (by rw [hflen] at hfuel; omega)]
          simp only [pbind_ok]
          have hpk3 : peek ((pre ++ [n, "("]) ++ flatTerms (t :: ts')
              ++ (")" :: post))
              ((pre ++ [n, "("]).length + (flatTerms (t :: ts')).length)
              = some ")" := by
            rw [List.append_assoc]
            exact peek_after _ _ _ _
          rw [consumeP_of_peek hpk3]
          simp only [pbind_ok]
          rw [show (pre ++ [n, "("]).length + (flatTerms (t :: ts')).length + 1
            = pre.length + (flatF (Formula.Predicate n (t :: ts'))).length by
              rw [hflen]
              simp only [List.length_append, List.length_cons, List.length_nil,
            List.length_singleton]
              omega]
  | .Conjunction l r, hg, pre, post, fuel, hfuel => by
    obtain ⟨hgl, hgr⟩ := hg
    have hflen : (flatF (Formula.Conjunction l r)).length
        = (flatF l).length + (flatF r).length + 3 := by
      simp only [flatF, List.length_cons, List.length_append,
        List.length_singleton, List.length_nil]
      omega
    cases fuel with
    | zero => exact absurd hfuel (by omega)
    | succ g =>
      have htoks : pre ++ flatF (Formula.Conjunction l r) ++ post
          = pre ++ "(" :: (flatF l ++ "&" :: (flatF r ++ ")" :: post)) := by
        simp [flatF]
      rw [htoks]
      have hpk0 := peek_middle pre "(" (flatF l ++ "&" :: (flatF r ++ ")" :: post))
      simp only [parseFormulaF]
      rw [hpk0, if_pos rfl, consumeP_of_peek hpk0]
      simp only [pbind_ok]
      have hre1 : pre ++ "(" :: (flatF l ++ "&" :: (flatF r ++ ")" :: post))
          = (pre ++ ["("]) ++ flatF l ++ ("&" :: (flatF r ++ ")" :: post)) := by
        simp
      have hlen1 : pre.length + 1 = (pre ++ ["("]).length := by simp
      rw [hre1, hlen1, parseFlat l hgl (pre ++ ["("]) _ g (by omega)]
      simp only [pbind_ok]
      have hpk1 : peek ((pre ++ ["("]) ++ flatF l
          ++ ("&" :: (flatF r ++ ")" :: post)))
          ((pre ++ ["("]).length + (flatF l).length) = some "&" := by
        rw [List.append_assoc]
        exact peek_after _ _ _ _
      rw [consumeP_none_of_peek hpk1]
      simp only [pbind_ok]
      have hre2 : (pre ++ ["("]) ++ flatF l ++ ("&" :: (flatF r ++ ")" :: post))
          = ((pre ++ ["("] ++ flatF l) ++ ["&"]) ++ flatF r ++ (")" :: post) := by
        simp
      have hlen2 : (pre ++ ["("]).length + (flatF l).length + 1
          = ((pre ++ ["("] ++ flatF l) ++ ["&"]).length := by
        simp only [List.length_append, List.length_cons, List.length_nil,
            List.length_singleton]
      rw [hre2, hlen2,
        parseFlat r hgr ((pre ++ ["("] ++ flatF l) ++ ["&"]) _ g (by omega)]
      simp only [pbind_ok]
      have hpk2 : peek (((pre ++ ["("] ++ flatF l) ++ ["&"]) ++ flatF r
          ++ (")" :: post))
          (((pre ++ ["("] ++ flatF l) ++ ["&"]).length + (flatF r).length)
          = some ")" := by
        rw [List.append_assoc]
        exact peek_after _ _ _ _
      rw [consumeP_of_peek hpk2]
      simp only [pbind_ok]
      rw [show ((pre ++ ["("] ++ flatF l) ++ ["&"]).length + (flatF r).length + 1
        = pre.length + (flatF (Formula.Conjunction l r)).length by
          rw [hflen]
          simp only [List.length_append, List.length_cons, List.length_nil,
            List.length_singleton]
          omega]
      simp
  | .Disjunction l r, hg, pre, post, fuel, hfuel => by
    obtain ⟨hgl, hgr⟩ := hg
    have hflen : (flatF (Formula.Disjunction l r)).length
        = (flatF l).length + (flatF r).length + 3 := by
      simp only [flatF, List.length_cons, List.length_append,
        List.length_singleton, List.length_nil]
      omega
    cases fuel with
    | zero => exact absurd hfuel (by omega)
    | succ g =>
      have htoks : pre ++ flatF (Formula.Disjunction l r) ++ post
          = pre ++ "(" :: (flatF l ++ "|" :: (flatF r ++ ")" :: post)) := by
        simp [flatF]
      rw [htoks]
      have hpk0 := peek_middle pre "(" (flatF l ++ "|" :: (flatF r ++ ")" :: post))
      simp only [parseFormulaF]
      rw [hpk0, if_pos rfl, consumeP_of_peek hpk0]
      simp only [pbind_ok]
      have hre1 : pre ++ "(" :: (flatF l ++ "|" :: (flatF r ++ ")" :: post))
          = (pre ++ ["("]) ++ flatF l ++ ("|" :: (flatF r ++ ")" :: post)) := by
        simp
      have hlen1 : pre.length + 1 = (pre ++ ["("]).length := by simp
      rw [hre1, hlen1, parseFlat l hgl (pre ++ ["("]) _ g (by omega)]
      simp only [pbind_ok]
      have hpk1 : peek ((pre ++ ["("]) ++ flatF l
          ++ ("|" :: (flatF r ++ ")" :: post)))
          ((pre ++ ["("]).length + (flatF l).length) = some "|" := by
        rw [List.append_assoc]
        exact peek_after _ _ _ _
      rw [consumeP_none_of_peek hpk1]
      simp only [pbind_ok]
      have hre2 : (pre ++ ["("]) ++ flatF l ++ ("|" :: (flatF r ++ ")" :: post))
          = ((pre ++ ["("] ++ flatF l) ++ ["|"]) ++ flatF r ++ (")" :: post) := by
        simp
      have hlen2 : (pre ++ ["("]).length + (flatF l).length + 1
          = ((pre ++ ["("] ++ flatF l) ++ ["|"]).length := by
        simp only [List.length_append, List.length_cons, List.length_nil,
            List.length_singleton]
      rw [hre2, hlen2,
        parseFlat r hgr ((pre ++ ["("] ++ flatF l) ++ ["|"]) _ g (by omega)]
      simp only [pbind_ok]
      have hpk2 : peek (((pre ++ ["("] ++ flatF l) ++ ["|"]) ++ flatF r
          ++ (")" :: post))
          (((pre ++ ["("] ++ flatF l) ++ ["|"]).length + (flatF r).length)
          = some ")" := by
        rw [List.append_assoc]
        exact peek_after _ _ _ _
      rw [consumeP_of_peek hpk2]
      simp only [pbind_ok]
      rw [show ((pre ++ ["("] ++ flatF l) ++ ["|"]).length + (flatF r).length + 1
        = pre.length + (flatF (Formula.Disjunction l r)).length by
          rw [hflen]
          simp only [List.length_append, List.length_cons, List.length_nil,
            List.length_singleton]
          omega]
      simp
  | .Implication l r, hg, pre, post, fuel, hfuel => by
    obtain ⟨hgl, hgr⟩ := hg
    have hflen : (flatF (Formula.Implication l r)).length
        = (flatF l).length + (flatF r).length + 3 := by
      simp only [flatF, List.length_cons, List.length_append,
        List.length_singleton, List.length_nil]
      omega
    cases fuel with
    | zero => exact absurd hfuel (by omega)
    | succ g =>
      have htoks : pre ++ flatF (Formula.Implication l r) ++ post
          = pre ++ "(" :: (flatF l ++ "->" :: (flatF r ++ ")" :: post)) := by
        simp [flatF]
      rw [htoks]
      have hpk0 := peek_middle pre "(" (flatF l ++ "->" :: (flatF r ++ ")" :: post))
      simp only [parseFormulaF]
      rw [hpk0, if_pos rfl, consumeP_of_peek hpk0]
      simp only [pbind_ok]
      have hre1 : pre ++ "(" :: (flatF l ++ "->" :: (flatF r ++ ")" :: post))
          = (pre ++ ["("]) ++ flatF l ++ ("->" :: (flatF r ++ ")" :: post)) := by
        simp
      have hlen1 : pre.length + 1 = (pre ++ ["("]).length := by simp
      rw [hre1, hlen1, parseFlat l hgl (pre ++ ["("]) _ g (by omega)]
      simp only [pbind_ok]
      have hpk1 : peek ((pre ++ ["("]) ++ flatF l
          ++ ("->" :: (flatF r ++ ")" :: post)))
          ((pre ++ ["("]).length + (flatF l).length) = some "->" := by
        rw [List.append_assoc]
        exact peek_after _ _ _ _
      rw [consumeP_none_of_peek hpk1]
      simp only [pbind_ok]
      have hre2 : (pre ++ ["("]) ++ flatF l ++ ("->" :: (flatF r ++ ")" :: post))
          = ((pre ++ ["("] ++ flatF l) ++ ["->"]) ++ flatF r ++ (")" :: post) := by
        simp
      have hlen2 : (pre ++ ["("]).length + (flatF l).length + 1
          = ((pre ++ ["("] ++ flatF l) ++ ["->"]).length := by
        simp only [List.length_append, List.length_cons, List.length_nil,
            List.length_singleton]
      rw [hre2, hlen2,
        parseFlat r hgr ((pre ++ ["("] ++ flatF l) ++ ["->"]) _ g (by omega)]
      simp only [pbind_ok]
      have hpk2 : peek (((pre ++ ["("] ++ flatF l) ++ ["->"]) ++ flatF r
          ++ (")" :: post))
          (((pre ++ ["("] ++ flatF l) ++ ["->"]).length + (flatF r).length)
          = some ")" := by
        rw [List.append_assoc]
        exact peek_after _ _ _ _
      rw [consumeP_of_peek hpk2]
      simp only [pbind_ok]
      rw [show ((pre ++ ["("] ++ flatF l) ++ ["->"]).length + (flatF r).length + 1
        = pre.length + (flatF (Formula.Implication l r)).length by
          rw [hflen]
          simp only [List.length_append, List.length_cons, List.length_nil,
            List.length_singleton]
          omega]
      simp

/-- Re-parsing a rendered term list rebuilds the terms, stopping at the
closing parenthesis that follows. -/
theorem parseFlatTerms : ∀ ts, GoodRTerms ts → ts ≠ [] →
    ∀ (pre post : List String) (fuel : Nat),
    (flatTerms ts).length ≤ fuel →
    parseTermsF (pre ++ flatTerms ts ++ (")" :: post)) fuel pre.length
      = .ok ts (pre.length + (flatTerms ts).length)
  | [], _, hne, _, _, _, _ => absurd rfl hne
  | [t], hg, _, pre, post, fuel, hfuel => by
    obtain ⟨hgt, -⟩ := hg
    obtain ⟨n₁, hfl1, -, -⟩ := goodTerm_flat hgt
    have hflt : flatTerms [t] = [n₁] := by
      rw [show flatTerms [t] = flatF t from rfl, hfl1]
    rw [hflt] at hfuel
    cases fuel with
    | zero => exact absurd hfuel (by simp)
    | succ g =>
      have htoks : pre ++ flatTerms [t] ++ (")" :: post)
          = pre ++ n₁ :: ")" :: post := by rw [hflt]; simp
      rw [htoks]
      simp only [parseTermsF]
      rw [parseTermP_flat hgt hfl1 (peek_middle pre n₁ (")" :: post))]
      simp only [pbind_ok]
      have hpk1 : peek (pre ++ n₁ :: ")" :: post) (pre.length + 1)
          = some ")" := by
        rw [show pre ++ n₁ :: ")" :: post = pre ++ ([n₁] ++ ")" :: post)
            by simp,
          show pre.length + 1 = pre.length + ([n₁] : List String).length
            by simp]
        exact peek_after _ _ _ _
      rw [hpk1, if_pos rfl, hflt]
      rfl
  | t :: t' :: ts', hg, _, pre, post, fuel, hfuel => by
    obtain ⟨hgt, hgts⟩ := hg
    obtain ⟨n₁, hfl1, -, -⟩ := goodTerm_flat hgt
    have hflt : flatTerms (t :: t' :: ts') = n₁ :: "," :: flatTerms (t' :: ts') := by
      rw [flatTerms_cons_ne (by simp), hfl1]
      rfl
    rw [hflt] at hfuel
    simp only [List.length_cons] at hfuel
    cases fuel with
    | zero => exact absurd hfuel (by omega)
    | succ g =>
      have htoks : pre ++ flatTerms (t :: t' :: ts') ++ (")" :: post)
          = pre ++ n₁ :: "," :: (flatTerms (t' :: ts') ++ ")" :: post) := by
        rw [hflt]
        simp
      rw [htoks]
      simp only [parseTermsF]
      rw [parseTermP_flat hgt hfl1
        (peek_middle pre n₁ ("," :: (flatTerms (t' :: ts') ++ ")" :: post)))]
      simp only [pbind_ok]
      have hpk1 : peek (pre ++ n₁ :: "," :: (flatTerms (t' :: ts') ++ ")" :: post))
          (pre.length + 1) = some "," := by
        rw [show pre ++ n₁ :: "," :: (flatTerms (t' :: ts') ++ ")" :: post)
            = pre ++ ([n₁] ++ "," :: (flatTerms (t' :: ts') ++ ")" :: post))
            by simp,
          show pre.length + 1 = pre.length + ([n₁] : List String).length
            by simp]
        exact peek_after _ _ _ _
      rw [hpk1, if_neg (by simp), consumeP_of_peek hpk1]
      simp only [pbind_ok]
      have hre : pre ++ n₁ :: "," :: (flatTerms (t' :: ts') ++ ")" :: post)
          = (pre ++ [n₁, ","]) ++ flatTerms (t' :: ts') ++ (")" :: post) := by
        simp
      have hlen : pre.length + 1 + 1 = (pre ++ ([n₁, ","] : List String)).length := by
        simp only [List.length_append, List.length_cons, List.length_nil,
            List.length_singleton]
      rw [hre, hlen,
        parseFlatTerms (t' :: ts') hgts (by simp) (pre ++ [n₁, ","]) post g
          (by omega)]
      simp only [pbind_ok]
      rw [show (pre ++ ([n₁, ","] : List String)).length
          + (flatTerms (t' :: ts')).length
        = pre.length + (flatTerms (t :: t' :: ts')).length by
          rw [hflt]
          simp only [List.length_append, List.length_cons, List.length_nil,
            List.length_singleton]
          omega]

end


/-! ## Scanning the canonical rendering (claim C1) -/

/-- Rebuilding a string from its character list. -/
theorem mk_data : ∀ s : String, String.mk s.data = s
  | ⟨_⟩ => rfl

theorem dropWhile_idem (p : Char → Bool) :
    ∀ l : List Char, (l.dropWhile p).dropWhile p = l.dropWhile p
  | [] => rfl
  | c :: cs => by
    by_cases h : p c = true
    · rw [List.dropWhile_cons_of_pos h]
      exact dropWhile_idem p cs
    · rw [List.dropWhile_cons_of_neg (by simp [h]),
        List.dropWhile_cons_of_neg (by simp [h])]

theorem tryMatch_dropWhile (ctx : List Char) :
    tryMatch (ctx.dropWhile pyIsSpace) = tryMatch ctx := by
  unfold tryMatch
  rw [dropWhile_idem]

/-- One successful step of the scanner, from an empty pending buffer. -/
theorem scanAux_match {cs tok rest : List Char}
    (h : tryMatch cs = some (tok, rest)) :
    scanAux [] cs = String.mk tok :: scanAux [] rest := by
  cases cs with
  | nil => cases h
  | cons c cs' =>
    rw [scanAux_cons, h]
    rfl

/-- Dropping leading whitespace does not change the scan when a match
starts at the head. -/
theorem scanAux_eq_dropWs {ctx : List Char} (hm : tryMatch ctx ≠ none) :
    scanAux [] (ctx.dropWhile pyIsSpace) = scanAux [] ctx := by
  cases h : tryMatch ctx with
  | none => exact absurd h hm
  | some pr =>
    obtain ⟨tok, rest⟩ := pr
    rw [scanAux_match h, scanAux_match (by rw [tryMatch_dropWhile]; exact h)]

theorem scanAux_dropWs_match {X tok rest : List Char}
    (h : tryMatch X = some (tok, rest)) :
    scanAux [] (X.dropWhile pyIsSpace) = String.mk tok :: scanAux [] rest := by
  rw [scanAux_eq_dropWs (fun hn => by rw [h] at hn; cases hn), scanAux_match h]

/-- A right context at which the composed scan lemmas may stop: either
the end of the input, or a position where the pattern matches. -/
def CtxGood (ctx : List Char) : Prop :=
  ctx = [] ∨ tryMatch ctx ≠ none

theorem ctxGood_dropWs {ctx : List Char} (h : CtxGood ctx) :
    scanAux [] (ctx.dropWhile pyIsSpace) = scanAux [] ctx := by
  rcases h with rfl | hm
  · rfl
  · exact scanAux_eq_dropWs hm

theorem cased_not_space {c : Char}
    (h : pyIsLower c = true ∨ pyIsUpper c = true) : pyIsSpace c = false := by
  cases hs : pyIsSpace c with
  | false => rfl
  | true =>
    have h1 := pyIsSpace_iff.mp hs
    rcases h with h | h
    · have := pyIsLower_iff.mp h
      omega
    · have := pyIsUpper_iff.mp h
      omega

theorem head_cased {n : String}
    (hc : headLower n = true ∨ headUpper n = true) :
    ∃ c cs, n.data = c :: cs ∧ (pyIsLower c = true ∨ pyIsUpper c = true) := by
  unfold headLower headUpper at hc
  cases hd : n.data with
  | nil =>
    rcases hc with h | h <;> (rw [hd] at h; simp only [] at h; cases h)
  | cons c cs =>
    rcases hc with h | h <;> rw [hd] at h <;> simp only [] at h
    · exact ⟨c, cs, rfl, .inl h⟩
    · exact ⟨c, cs, rfl, .inr h⟩

/-- A name (cased first character) is not eaten by leading-whitespace
stripping. -/
theorem dropWhile_name {n : String}
    (hc : headLower n = true ∨ headUpper n = true) (X : List Char) :
    (n.data ++ X).dropWhile pyIsSpace = n.data ++ X := by
  obtain ⟨c, cs, hd, hcase⟩ := head_cased hc
  rw [hd, List.cons_append,
    List.dropWhile_cons_of_neg (by simp [cased_not_space hcase])]

theorem matchCore_lower_run {c : Char} (h : asciiLower c = true)
    (l : List Char) :
    matchCore (c :: l) =
      some (c :: l.takeWhile lowerCont, l.dropWhile lowerCont) := by
  have h1 : c ≠ '(' := by rintro rfl; exact absurd h (by decide)
  have h2 : c ≠ ')' := by rintro rfl; exact absurd h (by decide)
  rw [matchCore_cons, if_neg h1, if_neg h2, if_pos h]

theorem matchCore_upper_run {c : Char} (h : asciiUpper c = true)
    (l : List Char) :
    matchCore (c :: l) =
      some (c :: l.takeWhile upperCont, l.dropWhile upperCont) := by
  have h1 : c ≠ '(' := by rintro rfl; exact absurd h (by decide)
  have h2 : c ≠ ')' := by rintro rfl; exact absurd h (by decide)
  have h3 : asciiLower c = false := by
    cases hl : asciiLower c with
    | false => rfl
    | true =>
      have := asciiLower_iff.mp hl
      have := asciiUpper_iff.mp h
      omega
  rw [matchCore_cons, if_neg h1, if_neg h2, if_neg (by simp [h3]), if_pos h]

/-- A full continuation run followed by a non-continuation head splits a
`takeWhile`/`dropWhile` exactly at the boundary. -/
theorem run_takeWhile {p : Char → Bool} :
    ∀ (r ctx : List Char), (∀ x ∈ r, p x = true) →
      (∀ c, ctx.head? = some c → p c = false) →
      (r ++ ctx).takeWhile p = r ∧ (r ++ ctx).dropWhile p = ctx
  | [], ctx, _, hc => by
    cases ctx with
    | nil => exact ⟨rfl, rfl⟩
    | cons d ds =>
      have hd := hc d rfl
      rw [List.nil_append]
      exact ⟨List.takeWhile_cons_of_neg (by simp [hd]),
        List.dropWhile_cons_of_neg (by simp [hd])⟩
  | c :: r', ctx, hall, hc => by
    have hpc : p c = true := hall c (by simp)
    obtain ⟨ht, hd⟩ := run_takeWhile r' ctx
      (fun x hx => hall x (by simp [hx])) hc
    rw [List.cons_append, List.takeWhile_cons_of_pos hpc,
      List.dropWhile_cons_of_pos hpc, ht, hd]
    exact ⟨rfl, rfl⟩

/-- The core match of a cased core token does not extend into a context
headed by a space or a comma. -/
theorem coreName_match {n : String} {ctx : List Char}
    (hc : headLower n = true ∨ headUpper n = true)
    (hcore : CoreTok n.data)
    (hh : ctx.head? = some ' ' ∨ ctx.head? = some ',') :
    matchCore (n.data ++ ctx) = some (n.data, ctx) := by
  obtain ⟨c, cs, hd, hcase⟩ := head_cased hc
  unfold CoreTok at hcore
  rw [hd] at hcore ⊢
  have hctxL : ∀ c', ctx.head? = some c' → lowerCont c' = false := by
    intro c' hc'
    rcases hh with hh | hh <;> rw [hh] at hc' <;> cases hc' <;> decide
  have hctxU : ∀ c', ctx.head? = some c' → upperCont c' = false := by
    intro c' hc'
    rcases hh with hh | hh <;> rw [hh] at hc' <;> cases hc' <;> decide
  rcases matchCore_cases hcore with
    ⟨he, -, hsym⟩ | ⟨-, hr, h3⟩ | ⟨-, hr, h4⟩ | ⟨-, -, -, rfl⟩
  · obtain rfl : cs = [] := by simpa using congrArg List.length he
    rcases hsym with rfl | rfl | rfl | rfl | rfl | rfl | rfl <;>
      rcases hcase with h | h <;> exact absurd h (by decide)
  · have hall : ∀ x ∈ cs, lowerCont x = true :=
      List.dropWhile_eq_nil_iff.mp hr.symm
    obtain ⟨ht, hdr⟩ := run_takeWhile cs ctx hall hctxL
    rw [List.cons_append, matchCore_lower_run h3, ht, hdr]
  · have hall : ∀ x ∈ cs, upperCont x = true :=
      List.dropWhile_eq_nil_iff.mp hr.symm
    obtain ⟨ht, hdr⟩ := run_takeWhile cs ctx hall hctxU
    rw [List.cons_append, matchCore_upper_run h4, ht, hdr]
  · rcases hcase with h | h <;> exact absurd h (by decide)


theorem pad_append (a b : List Char) : pad (a ++ b) = pad a ++ pad b :=
  List.flatMap_append a b _

/-- `pad` leaves a string alone when it contains no parenthesis and no
dot. -/
theorem pad_id : ∀ l : List Char,
    (∀ c ∈ l, ¬(c = '(' ∨ c = ')' ∨ c = '.')) → pad l = l
  | [], _ => rfl
  | c :: cs, h => by
    have hc := h c (by simp)
    have h1 : pad (c :: cs)
        = (if c = '(' then [' ', '(', ' ']
           else if c = ')' then [' ', ')', ' ']
           else if c = '.' then [' ', '.', ' '] else [c]) ++ pad cs := rfl
    rw [h1, if_neg (fun hx => hc (.inl hx)),
      if_neg (fun hx => hc (.inr (.inl hx))),
      if_neg (fun hx => hc (.inr (.inr hx))),
      pad_id cs (fun x hx => h x (by simp [hx]))]
    rfl

/-- Clean junk contains no character at which the core pattern matches
outright (parentheses, dots, and the other single-character tokens). -/
theorem cleanJunk_no_symbol {j : List Char} (hj : CleanJunk j) :
    ∀ c ∈ j, ¬(c = '(' ∨ c = ')' ∨ c = '.') := by
  intro c hcin hcsym
  obtain ⟨u, w, rfl⟩ := List.append_of_mem hcin
  obtain ⟨hw, hmc⟩ := hj.2 u (c :: w) rfl (by simp)
  have hcs : pyIsSpace c = false := by
    rcases hcsym with rfl | rfl | rfl <;> decide
  rw [List.dropWhile_cons_of_neg (by simp [hcs])] at hmc
  rw [matchCore_cons] at hmc
  rcases hcsym with rfl | rfl | rfl
  · rw [if_pos rfl] at hmc
    cases hmc
  · rw [if_neg (by decide), if_pos rfl] at hmc
    cases hmc
  · rw [if_neg (by decide), if_neg (by decide), if_neg (by decide),
      if_neg (by decide), if_neg (by decide), if_neg (by decide),
      if_neg (by decide), if_neg (by decide), if_pos rfl] at hmc
    cases hmc

/-- A stored name (one core match or clean junk) never contains a
parenthesis or a dot, so the padding pre-pass leaves it unchanged. -/
theorem name_nopad {n : String}
    (hc : headLower n = true ∨ headUpper n = true)
    (hcc : CoreTok n.data ∨ CleanJunk n.data) : pad n.data = n.data := by
  rcases hcc with hcore | hj
  · obtain ⟨c, cs, hd, hcase⟩ := head_cased hc
    unfold CoreTok at hcore
    rw [hd] at hcore ⊢
    refine pad_id _ ?_
    rcases matchCore_cases hcore with
      ⟨he, -, hsym⟩ | ⟨-, hr, h3⟩ | ⟨-, hr, h4⟩ | ⟨-, -, -, rfl⟩
    · obtain rfl : cs = [] := by simpa using congrArg List.length he
      rcases hsym with rfl | rfl | rfl | rfl | rfl | rfl | rfl <;>
        rcases hcase with h | h <;> exact absurd h (by decide)
    · have hall : ∀ x ∈ cs, lowerCont x = true :=
        List.dropWhile_eq_nil_iff.mp hr.symm
      intro x hx hsym
      have hx' : lowerCont x = true ∨ x = c := by
        rcases List.mem_cons.mp hx with rfl | hx'
        · exact .inr rfl
        · exact .inl (hall x hx')
      rcases hx' with hx' | rfl
      · have h1 : asciiLower x = true ∨ asciiDigit x = true := by
          simpa [lowerCont] using hx'
        rcases hsym with rfl | rfl | rfl <;> rcases h1 with h1 | h1 <;>
          exact absurd h1 (by decide)
      · rcases hsym with rfl | rfl | rfl <;> exact absurd h3 (by decide)
    · have hall : ∀ x ∈ cs, upperCont x = true :=
        List.dropWhile_eq_nil_iff.mp hr.symm
      intro x hx hsym
      have hx' : upperCont x = true ∨ x = c := by
        rcases List.mem_cons.mp hx with rfl | hx'
        · exact .inr rfl
        · exact .inl (hall x hx')
      rcases hx' with hx' | rfl
      · have h1 : asciiUpper x = true ∨ asciiDigit x = true := by
          simpa [upperCont] using hx'
        rcases hsym with rfl | rfl | rfl <;> rcases h1 with h1 | h1 <;>
          exact absurd h1 (by decide)
      · rcases hsym with rfl | rfl | rfl <;> exact absurd h4 (by decide)
    · rcases hcase with h | h <;> exact absurd h (by decide)
  · exact pad_id _ (cleanJunk_no_symbol hj)

/-- Scanning an unmatched stretch accumulates it into the pending
buffer. -/
theorem scanAux_junk_accum {ctx : List Char} :
    ∀ (j pending : List Char),
      (∀ u v, j = u ++ v → v ≠ [] → tryMatch (v ++ ctx) = none) →
      scanAux pending (j ++ ctx) = scanAux (pending ++ j) ctx
  | [], pending, _ => by simp
  | c :: j', pending, hnm => by
    have h0 : tryMatch (c :: (j' ++ ctx)) = none := by
      have := hnm [] (c :: j') rfl (by simp)
      rwa [List.cons_append] at this
    rw [List.cons_append, scanAux_cons, h0]
    rw [scanAux_junk_accum j' (pending ++ [c])
      (fun u v hu hv => hnm (c :: u) v (by rw [hu]; rfl) hv)]
    rw [List.append_assoc, List.singleton_append]

/-- The pattern matches nowhere inside clean junk, with any context that
does not begin with `>` appended. -/
theorem cleanJunk_extend {j ctx : List Char} (hj : CleanJunk j)
    (hgt : ctx.head? ≠ some '>') :
    ∀ u v, j = u ++ v → v ≠ [] → tryMatch (v ++ ctx) = none := by
  intro u v hu hv
  obtain ⟨hw, hmc⟩ := hj.2 u v hu hv
  apply tryMatch_eq_none
  rw [List.dropWhile_append, if_neg (by simpa [List.isEmpty_iff] using hw)]
  cases hvd : v.dropWhile pyIsSpace with
  | nil => exact absurd hvd hw
  | cons c l =>
    rw [hvd] at hmc
    rw [List.cons_append]
    exact matchCore_none_extend hmc (fun _ => hgt)

/-- Scanning a stored name followed by a space- or comma-headed context
at which the pattern matches emits exactly the name. -/
theorem name_scan {n : String}
    (hc : headLower n = true ∨ headUpper n = true)
    (hcc : CoreTok n.data ∨ CleanJunk n.data) {ctx : List Char}
    (hm : tryMatch ctx ≠ none)
    (hh : ctx.head? = some ' ' ∨ ctx.head? = some ',') :
    scanAux [] (n.data ++ ctx) = n :: scanAux [] ctx := by
  rcases hcc with hcore | hj
  · have htm : tryMatch (n.data ++ ctx)
        = some (n.data, ctx.dropWhile pyIsSpace) := by
      unfold tryMatch
      rw [dropWhile_name hc, coreName_match hc hcore hh]
    rw [scanAux_match htm, mk_data, scanAux_eq_dropWs hm]
  · have hgt : ctx.head? ≠ some '>' := by
      rcases hh with hh | hh <;> simp [hh]
    have hacc := scanAux_junk_accum n.data [] (cleanJunk_extend hj hgt)
    rw [List.nil_append] at hacc
    rw [hacc]
    cases hctx : ctx with
    | nil => rw [hctx] at hm; exact absurd rfl hm
    | cons c0 cs0 =>
      cases htm : tryMatch (c0 :: cs0) with
      | none => rw [hctx] at hm; exact absurd htm hm
      | some pr =>
        obtain ⟨tok, rest⟩ := pr
        rw [scanAux_cons, htm]
        simp only []
        have hnws : n.data.all pyIsSpace = false := by
          obtain ⟨c, cs, hd, hcase⟩ := head_cased hc
          rw [hd]
          simp [cased_not_space hcase]
        unfold flushPending
        rw [if_neg (by simp [hnws]), mk_data, scanAux_match htm]


theorem data_append (a b : String) : (a ++ b).data = a.data ++ b.data := rfl

theorem tryMatch_lparen (X : List Char) :
    tryMatch (' ' :: '(' :: ' ' :: X)
      = some (['('], X.dropWhile pyIsSpace) := rfl

theorem tryMatch_rparen (X : List Char) :
    tryMatch (' ' :: ')' :: ' ' :: X)
      = some ([')'], X.dropWhile pyIsSpace) := rfl

theorem tryMatch_amp (X : List Char) :
    tryMatch (' ' :: '&' :: ' ' :: X)
      = some (['&'], X.dropWhile pyIsSpace) := rfl

theorem tryMatch_bar (X : List Char) :
    tryMatch (' ' :: '|' :: ' ' :: X)
      = some (['|'], X.dropWhile pyIsSpace) := rfl

theorem tryMatch_arrow (X : List Char) :
    tryMatch (' ' :: '-' :: '>' :: ' ' :: X)
      = some (['-', '>'], X.dropWhile pyIsSpace) := rfl

theorem tryMatch_comma (X : List Char) :
    tryMatch (',' :: ' ' :: X)
      = some ([','], X.dropWhile pyIsSpace) := rfl

theorem mk_lparen : String.mk ['('] = "(" := rfl

theorem mk_rparen : String.mk [')'] = ")" := rfl

theorem mk_amp : String.mk ['&'] = "&" := rfl

theorem mk_bar : String.mk ['|'] = "|" := rfl

theorem mk_arrow : String.mk ['-', '>'] = "->" := rfl

theorem mk_comma : String.mk [','] = "," := rfl

/-- Scanning a rendered term (a bare stored name) in a space- or
comma-headed matching context. -/
theorem goodTerm_scan {t : Formula} (hg : GoodTerm t) {ctx : List Char}
    (hm : tryMatch ctx ≠ none)
    (hh : ctx.head? = some ' ' ∨ ctx.head? = some ',') :
    scanAux [] ((pad (render t).data ++ ctx).dropWhile pyIsSpace)
      = flatF t ++ scanAux [] ctx := by
  cases t with
  | Variable n =>
    obtain ⟨hl, hcc⟩ := hg
    have hcase : headLower n = true ∨ headUpper n = true := .inl hl
    rw [show pad (render (Formula.Variable n)).data = n.data from
        name_nopad hcase hcc,
      dropWhile_name hcase, name_scan hcase hcc hm hh]
    rfl
  | Constant n =>
    obtain ⟨hu, hl, hcc⟩ := hg
    have hcase : headLower n = true ∨ headUpper n = true := .inr hu
    rw [show pad (render (Formula.Constant n)).data = n.data from
        name_nopad hcase hcc,
      dropWhile_name hcase, name_scan hcase hcc hm hh]
    rfl
  | Predicate n ts => exact hg.elim
  | Negation f => exact hg.elim
  | Conjunction l r => exact hg.elim
  | Disjunction l r => exact hg.elim
  | Implication l r => exact hg.elim
  | Forall v b => exact hg.elim
  | Exists v b => exact hg.elim


mutual

/-- Scanning the padded canonical rendering of a round-trippable formula
recovers exactly its token sequence, before any good right context. -/
theorem renderScan : ∀ f, GoodR f → ∀ ctx, CtxGood ctx →
    scanAux [] ((pad (render f).data ++ ctx).dropWhile pyIsSpace)
      = flatF f ++ scanAux [] ctx
  | .Variable _, hg, _, _ => hg.elim
  | .Constant _, hg, _, _ => hg.elim
  | .Negation _, hg, _, _ => hg.elim
  | .Forall _ _, hg, _, _ => hg.elim
  | .Exists _ _, hg, _, _ => hg.elim
  | .Predicate n ts, hg, ctx, hctx => by
    obtain ⟨⟨hnu, hnl, hcc⟩, hts⟩ := hg
    have hcase : headLower n = true ∨ headUpper n = true := .inr hnu
    have hdec : pad (render (Formula.Predicate n ts)).data ++ ctx
        = n.data ++ (' ' :: '(' :: ' ' ::
            (pad (joinComma (renderList ts)).data
              ++ (' ' :: ')' :: ' ' :: ctx))) := by
      show pad ((n ++ "(" ++ joinComma (renderList ts) ++ ")").data)
          ++ ctx = _
      rw [data_append, data_append, data_append,
        pad_append, pad_append, pad_append,
        name_nopad hcase hcc,
        show pad "(".data = [' ', '(', ' '] from rfl,
        show pad ")".data = [' ', ')', ' '] from rfl]
      simp
    rw [hdec, dropWhile_name hcase]
    have h1 : tryMatch (' ' :: '(' :: ' ' ::
        (pad (joinComma (renderList ts)).data
          ++ (' ' :: ')' :: ' ' :: ctx))) ≠ none := by
      rw [tryMatch_lparen]
      simp
    rw [name_scan hcase hcc h1 (.inl rfl),
      scanAux_match (tryMatch_lparen _)]
    cases ts with
    | nil =>
      rw [show pad (joinComma (renderList ([] : List Formula))).data = []
          from rfl, List.nil_append,
        scanAux_dropWs_match (tryMatch_rparen ctx), ctxGood_dropWs hctx,
        mk_lparen, mk_rparen]
      rfl
    | cons t ts' =>
      have h2 : tryMatch (' ' :: ')' :: ' ' :: ctx) ≠ none := by
        rw [tryMatch_rparen]
        simp
      rw [renderScanTerms (t :: ts') hts (by simp)
          (' ' :: ')' :: ' ' :: ctx) h2 rfl,
        scanAux_match (tryMatch_rparen ctx), ctxGood_dropWs hctx,
        mk_lparen, mk_rparen]
      simp [flatF, List.append_assoc]
  | .Conjunction l r, hg, ctx, hctx => by
    obtain ⟨hgl, hgr⟩ := hg
    have hdec : pad (render (Formula.Conjunction l r)).data ++ ctx
        = ' ' :: '(' :: ' ' :: (pad (render l).data
            ++ (' ' :: '&' :: ' ' :: (pad (render r).data
              ++ (' ' :: ')' :: ' ' :: ctx)))) := by
      show pad (("(" ++ render l ++ " & " ++ render r ++ ")").data)
          ++ ctx = _
      rw [data_append, data_append, data_append, data_append,
        pad_append, pad_append, pad_append, pad_append,
        show pad "(".data = [' ', '(', ' '] from rfl,
        show pad " & ".data = [' ', '&', ' '] from rfl,
        show pad ")".data = [' ', ')', ' '] from rfl]
      simp
    rw [hdec,
      scanAux_dropWs_match (tryMatch_lparen _),
      renderScan l hgl (' ' :: '&' :: ' ' :: (pad (render r).data
        ++ (' ' :: ')' :: ' ' :: ctx)))
        (.inr (by rw [tryMatch_amp]; simp)),
      scanAux_match (tryMatch_amp _),
      renderScan r hgr (' ' :: ')' :: ' ' :: ctx)
        (.inr (by rw [tryMatch_rparen]; simp)),
      scanAux_match (tryMatch_rparen ctx), ctxGood_dropWs hctx,
      mk_lparen, mk_amp, mk_rparen]
    simp [flatF, List.append_assoc]
  | .Disjunction l r, hg, ctx, hctx => by
    obtain ⟨hgl, hgr⟩ := hg
    have hdec : pad (render (Formula.Disjunction l r)).data ++ ctx
        = ' ' :: '(' :: ' ' :: (pad (render l).data
            ++ (' ' :: '|' :: ' ' :: (pad (render r).data
              ++ (' ' :: ')' :: ' ' :: ctx)))) := by
      show pad (("(" ++ render l ++ " | " ++ render r ++ ")").data)
          ++ ctx = _
      rw [data_append, data_append, data_append, data_append,
        pad_append, pad_append, pad_append, pad_append,
        show pad "(".data = [' ', '(', ' '] from rfl,
        show pad " | ".data = [' ', '|', ' '] from rfl,
        show pad ")".data = [' ', ')', ' '] from rfl]
      simp
    rw [hdec,
      scanAux_dropWs_match (tryMatch_lparen _),
      renderScan l hgl (' ' :: '|' :: ' ' :: (pad (render r).data
        ++ (' ' :: ')' :: ' ' :: ctx)))
        (.inr (by rw [tryMatch_bar]; simp)),
      scanAux_match (tryMatch_bar _),
      renderScan r hgr (' ' :: ')' :: ' ' :: ctx)
        (.inr (by rw [tryMatch_rparen]; simp)),
      scanAux_match (tryMatch_rparen ctx), ctxGood_dropWs hctx,
      mk_lparen, mk_bar, mk_rparen]
    simp [flatF, List.append_assoc]
  | .Implication l r, hg, ctx, hctx => by
    obtain ⟨hgl, hgr⟩ := hg
    have hdec : pad (render (Formula.Implication l r)).data ++ ctx
        = ' ' :: '(' :: ' ' :: (pad (render l).data
            ++ (' ' :: '-' :: '>' :: ' ' :: (pad (render r).data
              ++ (' ' :: ')' :: ' ' :: ctx)))) := by
      show pad (("(" ++ render l ++ " -> " ++ render r ++ ")").data)
          ++ ctx = _
      rw [data_append, data_append, data_append, data_append,
        pad_append, pad_append, pad_append, pad_append,
        show pad "(".data = [' ', '(', ' '] from rfl,
        show pad " -> ".data = [' ', '-', '>', ' '] from rfl,
        show pad ")".data = [' ', ')', ' '] from rfl]
      simp
    rw [hdec,
      scanAux_dropWs_match (tryMatch_lparen _),
      renderScan l hgl (' ' :: '-' :: '>' :: ' ' :: (pad (render r).data
        ++ (' ' :: ')' :: ' ' :: ctx)))
        (.inr (by rw [tryMatch_arrow]; simp)),
      scanAux_match (tryMatch_arrow _),
      renderScan r hgr (' ' :: ')' :: ' ' :: ctx)
        (.inr (by rw [tryMatch_rparen]; simp)),
      scanAux_match (tryMatch_rparen ctx), ctxGood_dropWs hctx,
      mk_lparen, mk_arrow, mk_rparen]
    simp [flatF, List.append_assoc]

/-- Scanning a rendered comma-separated term list before a space-headed
matching context. -/
theorem renderScanTerms : ∀ ts, GoodRTerms ts → ts ≠ [] → ∀ ctx,
    tryMatch ctx ≠ none → ctx.head? = some ' ' →
    scanAux []
        ((pad (joinComma (renderList ts)).data ++ ctx).dropWhile pyIsSpace)
      = flatTerms ts ++ scanAux [] ctx
  | [], _, hne, _, _, _ => absurd rfl hne
  | [t], hg, _, ctx, hm, hh => by
    obtain ⟨hgt, -⟩ := hg
    exact goodTerm_scan hgt hm (.inl hh)
  | t :: t' :: ts'', hg, _, ctx, hm, hh => by
    obtain ⟨hgt, hgts⟩ := hg
    have hdec : pad (joinComma (renderList (t :: t' :: ts''))).data ++ ctx
        = pad (render t).data ++ (',' :: ' ' ::
            (pad (joinComma (renderList (t' :: ts''))).data ++ ctx)) := by
      show pad ((render t ++ ", "
          ++ joinComma (renderList (t' :: ts''))).data) ++ ctx = _
      rw [data_append, data_append, pad_append, pad_append,
        show pad ", ".data = [',', ' '] from rfl]
      simp
    rw [hdec]
    have h1 : tryMatch (',' :: ' ' ::
        (pad (joinComma (renderList (t' :: ts''))).data ++ ctx)) ≠ none := by
      rw [tryMatch_comma]
      simp
    rw [goodTerm_scan hgt h1 (.inr rfl),
      scanAux_match (tryMatch_comma _),
      renderScanTerms (t' :: ts'') hgts (by simp) ctx hm hh,
      flatTerms_cons_ne (t := t) (show t' :: ts'' ≠ [] by simp),
      mk_comma]
    simp [List.append_assoc]

end


/-- Tokenizing the canonical rendering of a round-trippable formula
yields exactly its token sequence. -/
theorem tokenize_render {f : Formula} (hg : GoodR f) :
    tokenize (render f) = flatF f := by
  have h := renderScan f hg [] (Or.inl rfl)
  rw [List.append_nil, show scanAux [] ([] : List Char) = [] from rfl,
    List.append_nil] at h
  have hdw : scanAux [] ((pad (render f).data).dropWhile pyIsSpace)
      = scanAux [] (pad (render f).data) := by
    cases f with
    | Variable n => exact hg.elim
    | Constant n => exact hg.elim
    | Negation f' => exact hg.elim
    | Forall v b => exact hg.elim
    | Exists v b => exact hg.elim
    | Predicate n ts =>
      obtain ⟨⟨hnu, hnl, hcc⟩, -⟩ := hg
      have hcase : headLower n = true ∨ headUpper n = true := .inr hnu
      have hdec : pad (render (Formula.Predicate n ts)).data
          = n.data ++ (' ' :: '(' :: ' ' ::
              (pad (joinComma (renderList ts)).data ++ [' ', ')', ' '])) := by
        show pad ((n ++ "(" ++ joinComma (renderList ts) ++ ")").data) = _
        rw [data_append, data_append, data_append,
          pad_append, pad_append, pad_append,
          name_nopad hcase hcc,
          show pad "(".data = [' ', '(', ' '] from rfl,
          show pad ")".data = [' ', ')', ' '] from rfl]
        simp
      rw [hdec, dropWhile_name hcase]
    | Conjunction l r =>
      refine scanAux_eq_dropWs ?_
      have hdec : pad (render (Formula.Conjunction l r)).data
          = ' ' :: '(' :: ' ' :: (pad (render l).data
              ++ (' ' :: '&' :: ' ' :: (pad (render r).data
                ++ [' ', ')', ' ']))) := by
        show pad (("(" ++ render l ++ " & " ++ render r ++ ")").data) = _
        rw [data_append, data_append, data_append, data_append,
          pad_append, pad_append, pad_append, pad_append,
          show pad "(".data = [' ', '(', ' '] from rfl,
          show pad " & ".data = [' ', '&', ' '] from rfl,
          show pad ")".data = [' ', ')', ' '] from rfl]
        simp
      rw [hdec, tryMatch_lparen]
      simp
    | Disjunction l r =>
      refine scanAux_eq_dropWs ?_
      have hdec : pad (render (Formula.Disjunction l r)).data
          = ' ' :: '(' :: ' ' :: (pad (render l).data
              ++ (' ' :: '|' :: ' ' :: (pad (render r).data
                ++ [' ', ')', ' ']))) := by
        show pad (("(" ++ render l ++ " | " ++ render r ++ ")").data) = _
        rw [data_append, data_append, data_append, data_append,
          pad_append, pad_append, pad_append, pad_append,
          show pad "(".data = [' ', '(', ' '] from rfl,
          show pad " | ".data = [' ', '|', ' '] from rfl,
          show pad ")".data = [' ', ')', ' '] from rfl]
        simp
      rw [hdec, tryMatch_lparen]
      simp
    | Implication l r =>
      refine scanAux_eq_dropWs ?_
      have hdec : pad (render (Formula.Implication l r)).data
          = ' ' :: '(' :: ' ' :: (pad (render l).data
              ++ (' ' :: '-' :: '>' :: ' ' :: (pad (render r).data
                ++ [' ', ')', ' ']))) := by
        show pad (("(" ++ render l ++ " -> " ++ render r ++ ")").data) = _
        rw [data_append, data_append, data_append, data_append,
          pad_append, pad_append, pad_append, pad_append,
          show pad "(".data = [' ', '(', ' '] from rfl,
          show pad " -> ".data = [' ', '-', '>', ' '] from rfl,
          show pad ")".data = [' ', ')', ' '] from rfl]
        simp
      rw [hdec, tryMatch_lparen]
      simp
  unfold tokenize
  rw [← hdw, h]

/-- A token whose first character passes `isupper()` fails the
`islower()` head test. -/
theorem headUpper_headLower {n : String} (h : headUpper n = true) :
    headLower n = false := by
  unfold headUpper at h
  unfold headLower
  cases hd : n.data with
  | nil => rw [hd] at h
  | cons c cs =>
    rw [hd] at h
    simp only [] at h ⊢
    exact pyIsUpper_not_lower h

mutual

/-- A parser-built formula without negations and quantifiers lies in the
round-trippable fragment. -/
theorem SOut_goodR {s : String} :
    ∀ f, SOut (tokenize s) f → hasNegOrQuant f = false → GoodR f
  | .Variable _, h, _ => h.elim
  | .Constant _, h, _ => h.elim
  | .Predicate n ts, h, hq => by
    obtain ⟨h1, h2, h3⟩ := h
    refine ⟨⟨h1, headUpper_headLower h1, originTok_core_or_clean h2⟩, ?_⟩
    exact SLTerms_goodRTerms ts h3 hq
  | .Negation f, _, hq => by simp [hasNegOrQuant] at hq
  | .Conjunction l r, h, hq => by
    obtain ⟨hl, hr⟩ := h
    simp only [hasNegOrQuant, Bool.or_eq_false_iff] at hq
    exact ⟨SOut_goodR l hl hq.1, SOut_goodR r hr hq.2⟩
  | .Disjunction l r, h, hq => by
    obtain ⟨hl, hr⟩ := h
    simp only [hasNegOrQuant, Bool.or_eq_false_iff] at hq
    exact ⟨SOut_goodR l hl hq.1, SOut_goodR r hr hq.2⟩
  | .Implication l r, h, hq => by
    obtain ⟨hl, hr⟩ := h
    simp only [hasNegOrQuant, Bool.or_eq_false_iff] at hq
    exact ⟨SOut_goodR l hl hq.1, SOut_goodR r hr hq.2⟩
  | .Forall _ _, _, hq => by simp [hasNegOrQuant] at hq
  | .Exists _ _, _, hq => by simp [hasNegOrQuant] at hq

/-- Companion of `SOut_goodR` for predicate argument lists. -/
theorem SLTerms_goodRTerms {s : String} :
    ∀ ts, SLTerms (tokenize s) ts → hasNegOrQuantList ts = false →
      GoodRTerms ts
  | [], _, _ => trivial
  | t :: ts, h, hq => by
    obtain ⟨ht, hts⟩ := h
    simp only [hasNegOrQuantList, Bool.or_eq_false_iff] at hq
    refine ⟨?_, SLTerms_goodRTerms ts hts hq.2⟩
    cases t with
    | Variable n =>
      obtain ⟨h1, h2⟩ := ht
      exact ⟨h1, originTok_core_or_clean h2⟩
    | Constant n =>
      obtain ⟨h1, h2, h3⟩ := ht
      exact ⟨h1, h2, originTok_core_or_clean h3⟩
    | Predicate n ts' => exact ht.elim
    | Negation f => exact ht.elim
    | Conjunction l r => exact ht.elim
    | Disjunction l r => exact ht.elim
    | Implication l r => exact ht.elim
    | Forall v b => exact ht.elim
    | Exists v b => exact ht.elim

end

/-- Claim C1 (amended): the round trip holds exactly on the fragment
without `Negation`, `Forall` and `Exists` nodes.  For such a parse
result, rendering it with `__repr__` and parsing the rendering returns
the same AST. -/
theorem parse_roundtrip {s : String} {f : Formula}
    (h : parse s = .ok f) (hq : hasNegOrQuant f = false) :
    parse (render f) = .ok f := by
  obtain ⟨p, hok, hnp⟩ := parse_ok_inv h
  have hS : SOut (tokenize s) f :=
    (parseSoundAll (tokenize s) ((tokenize s).length + 2)).1 0 f p hok
  have hG : GoodR f := SOut_goodR f hS hq
  have htk : tokenize (render f) = flatF f := tokenize_render hG
  have hp := parseFlat f hG [] [] ((flatF f).length + 2) (by omega)
  simp only [List.append_nil, List.nil_append, List.length_nil,
    Nat.zero_add] at hp
  simp only [parse, htk]
  rw [hp]
  simp only []
  rw [if_neg (lt_irrefl _)]


theorem parse_roundtrip_witness :
    parse "(P(x) & Q(y))" = .ok (Formula.Conjunction
        (Formula.Predicate "P" [Formula.Variable "x"])
        (Formula.Predicate "Q" [Formula.Variable "y"]))
      ∧ hasNegOrQuant (Formula.Conjunction
        (Formula.Predicate "P" [Formula.Variable "x"])
        (Formula.Predicate "Q" [Formula.Variable "y"])) = false
      ∧ parse (render (Formula.Conjunction
        (Formula.Predicate "P" [Formula.Variable "x"])
        (Formula.Predicate "Q" [Formula.Variable "y"])))
          = .ok (Formula.Conjunction
        (Formula.Predicate "P" [Formula.Variable "x"])
        (Formula.Predicate "Q" [Formula.Variable "y"])) :=
  ⟨rfl, rfl, @parse_roundtrip "(P(x) & Q(y))" (Formula.Conjunction
        (Formula.Predicate "P" [Formula.Variable "x"])
        (Formula.Predicate "Q" [Formula.Variable "y"])) rfl rfl⟩

end FOL
